import Mathlib

/-!
Verification of the TS-Features repository (`ts_features/target_based/lag.py`
and `ts_features/datetime_features/dt_features.py`).

The embedding models a pandas `DataFrame` as an ordered association list of
named, typed columns; a cell is `Option Int` (`none` is the missing/NaN
sentinel).  Python exceptions (`AssertionError` on the `assert` statements,
`KeyError`, `TypeError`, cast failures) are modelled with `Except PyErr`.
The `assert` statements in the source play the role the specification calls
`ConfigurationError`, hence the constructor name `configError`.
-/

namespace TSFeatures

/-- Errors a call can surface: `configError` stands for the `assert`
statements (the spec's ConfigurationError), `keyError` for pandas/dict
`KeyError`, `typeError` for Python `TypeError` (e.g. iterating `None`),
`castError` for a failing `astype`. -/
inductive PyErr where
  | configError
  | keyError
  | typeError
  | castError
deriving DecidableEq

/-- Semantic dtypes of a column, as relevant to `lag.py`: `Series.shift`
promotes `int64` to `float64` and `bool` to `object` because NaN must be
representable; `astype` back to `int`/`bool` fails while NaN is present. -/
inductive Dtype where
  | int
  | float
  | bool
  | cat
  | datetime
  | obj
deriving DecidableEq

/-- A cell: `none` is the missing-value (NaN) sentinel. -/
abbrev Cell := Option Int

/-- A column: its dtype plus the ordered cell values. -/
structure Col where
  dtype : Dtype
  values : List Cell
deriving DecidableEq

/-- Association-list lookup by key (first match), used both for
`DataFrame` column access and for the Python `dict`. -/
def lookupA {α : Type} : List (String × α) → String → Option α
  | [], _ => none
  | p :: ps, k => if p.1 = k then some p.2 else lookupA ps k

/-- Key-overwriting insert: Python `dict` assignment / pandas
`X.loc[:, name] = ...` keeps the position of an existing key and appends a
fresh key at the end. -/
def setA {α : Type} : List (String × α) → String → α → List (String × α)
  | [], k, v => [(k, v)]
  | p :: ps, k, v => if p.1 = k then (k, v) :: ps else p :: setA ps k v

/-- Boolean key-membership test for an association list. -/
def hasKeyA {α : Type} (m : List (String × α)) (k : String) : Bool :=
  m.any (fun p => decide (p.1 = k))

/-- Boolean membership test for a list of names. -/
def memB (l : List String) (n : String) : Bool :=
  l.any (fun m => decide (m = n))

/-- A pandas `DataFrame`: an ordered list of named columns. -/
structure Table where
  cols : List (String × Col)
deriving DecidableEq

/-- `X.columns`, in table order. -/
def Table.colNames (X : Table) : List String := X.cols.map Prod.fst

/-- `X.loc[:, n]` as a read (first column named `n`, if any). -/
def Table.getCol (X : Table) (n : String) : Option Col := lookupA X.cols n

/-- `X.loc[:, n] = c`: overwrite an existing column in place, else append. -/
def Table.setCol (X : Table) (n : String) (c : Col) : Table := ⟨setA X.cols n c⟩

/-- Number of rows (length of the first column; DataFrames are rectangular). -/
def Table.nRows (X : Table) : Nat :=
  match X.cols with
  | [] => 0
  | p :: _ => p.2.values.length

/-- `Series.shift(k)`: value at row `i` is the source value at row `i - k`,
and the missing sentinel for rows `i < k`. -/
def shiftVals (k : Nat) (vs : List Cell) : List Cell :=
  (List.replicate k none ++ vs).take vs.length

/-- Dtype of a shifted Series: NaN forces `int64 → float64` and
`bool → object`; the other dtypes can hold NaN as they are. -/
def shiftDtype : Dtype → Dtype
  | .int => .float
  | .bool => .obj
  | d => d

/-- `X.loc[:, c].shift(k)` as a whole column. -/
def shiftCol (k : Nat) (c : Col) : Col :=
  ⟨shiftDtype c.dtype, shiftVals k c.values⟩

/-- Row `i` has a missing value in some column (out-of-range counts as
missing; DataFrames are rectangular so that case does not arise). -/
def Table.missingRow (X : Table) (i : Nat) : Bool :=
  X.cols.any (fun p => (p.2.values.getD i none).isNone)

/-- The row indices `X.dropna` keeps: those with no missing value in any
column. -/
def Table.keepRows (X : Table) : List Nat :=
  (List.range X.nRows).filter (fun i => ! X.missingRow i)

/-- `X.dropna(inplace=True)` with default `axis=0, how="any"`: keep exactly
the rows with no missing value in any column. -/
def Table.dropna (X : Table) : Table :=
  ⟨X.cols.map (fun p =>
      (p.1, { dtype := p.2.dtype, values := X.keepRows.map (fun i => p.2.values.getD i none) }))⟩

/-- `Series.astype(t)`: fails when NaN is present and `t` cannot represent
it (`int64` / `bool`); otherwise only the dtype changes. -/
def castCol (c : Col) (t : Dtype) : Except PyErr Col :=
  if (t = Dtype.int ∨ t = Dtype.bool) ∧ c.values.any Option.isNone = true then
    .error .castError
  else
    .ok { dtype := t, values := c.values }

/-- `X.drop(columns=cs, inplace=True)`: `KeyError` if some name is absent,
otherwise remove exactly those columns. -/
def Table.dropCols (X : Table) (cs : List String) : Except PyErr Table :=
  if cs.all (fun c => hasKeyA X.cols c) then
    .ok ⟨X.cols.filter (fun p => ! memB cs p.1)⟩
  else
    .error .keyError

/-- State of `Lag` (`ts_features/target_based/lag.py`).  Field names follow
the Python attributes. -/
structure Lag where
  nPeriods : Int
  shiftColumns : Option (List String)
  dropNaRows : Bool
  dropOriginalColumns : Bool
  onlyOneColumnForPeriods : Bool
  newColumns : List String
  columnDtypeMap : List (String × Dtype)
deriving DecidableEq

/-- `Lag.__init__`: `assert n_periods > 0` (the spec's ConfigurationError),
then plain attribute assignment with empty tracking containers. -/
def Lag.make (nPeriods : Int) (shiftColumns : Option (List String))
    (dropNaRows dropOriginalColumns onlyOneColumnForPeriods : Bool) :
    Except PyErr Lag :=
  if 0 < nPeriods then
    .ok { nPeriods := nPeriods
          shiftColumns := shiftColumns
          dropNaRows := dropNaRows
          dropOriginalColumns := dropOriginalColumns
          onlyOneColumnForPeriods := onlyOneColumnForPeriods
          newColumns := []
          columnDtypeMap := [] }
  else
    .error .configError

/-- `Lag.fit`: when `shift_columns is None`, capture `X.columns`;
otherwise the state is untouched.  Only column names are read. -/
def Lag.fit (s : Lag) (X : Table) : Lag :=
  match s.shiftColumns with
  | none => { s with shiftColumns := some X.colNames }
  | some _ => s

/-- `"_LAG-{}".format(lag)` appended to the source column name. -/
def mkLagName (c : String) (k : Int) : String := c ++ "_LAG-" ++ toString k

/-- The lag amounts one transform call iterates over: `range(1, n+1)` when
`only_one_column_for_periods` is false, `[n]` when it is true. -/
def Lag.periodList (s : Lag) : List Int :=
  if s.onlyOneColumnForPeriods then [s.nPeriods]
  else (List.range s.nPeriods.toNat).map (fun i => Int.ofNat (i + 1))

/-- One `X.loc[:, new] = self._generate_lag_column_and_update_dtype_map(...)`
step: `assert period > 0`, append the new name, record the source column's
current dtype, then write the shifted Series into the table.  (In the Python
source the name is appended before the source column is read, so on a
`KeyError` the appended name survives in `self.new_columns`; the `Except`
model drops that partially-updated state along with the raised error.) -/
def Lag.genStep (s : Lag) (X : Table) (orig newName : String) (k : Int) :
    Except PyErr (Lag × Table) :=
  if 0 < k then
    match X.getCol orig with
    | some c =>
        .ok ({ s with newColumns := s.newColumns ++ [newName]
                      columnDtypeMap := setA s.columnDtypeMap newName c.dtype },
             X.setCol newName (shiftCol k.toNat c))
    | none => .error .keyError
  else
    .error .configError

/-- The generation plan: the two nested loops of `Lag.transform` (outer over
`shift_columns`, inner over the lag amounts) flattened into one list of
(source column, lag) pairs in the same visit order. -/
def Lag.genPlan (s : Lag) (cs : List String) : List (String × Int) :=
  cs.flatMap (fun c => s.periodList.map (fun k => (c, k)))

/-- The names produced by a plan, in generation order. -/
def planNames (plan : List (String × Int)) : List String :=
  plan.map (fun p => mkLagName p.1 p.2)

/-- Sequential execution of the generation loops. -/
def genFold : List (String × Int) → Lag → Table → Except PyErr (Lag × Table)
  | [], s, X => .ok (s, X)
  | p :: ps, s, X =>
    match Lag.genStep s X p.1 (mkLagName p.1 p.2) p.2 with
    | .ok sX => genFold ps sX.1 sX.2
    | .error e => .error e

/-- The column-generation phase of `Lag.transform`; iterating a `None`
column set raises `TypeError` in Python. -/
def Lag.genPhase (s : Lag) (X : Table) : Except PyErr (Lag × Table) :=
  match s.shiftColumns with
  | none => .error .typeError
  | some cs => genFold (s.genPlan cs) s X

/-- `Lag._cast_cols_dtypes_to_original`: for each entry of
`column_dtype_map` in insertion order, `X[col] = X[col].astype(type)`
(`KeyError` when the column is absent). -/
def castColsToOriginal : List (String × Dtype) → Table → Except PyErr Table
  | [], X => .ok X
  | p :: ps, X =>
    match X.getCol p.1 with
    | none => .error .keyError
    | some c =>
      match castCol c p.2 with
      | .ok c' => castColsToOriginal ps (X.setCol p.1 c')
      | .error e => .error e

/-- `Lag.transform`: generate all lag columns, then optionally drop rows
with missing values and restore the recorded dtypes, then optionally drop
the source columns.  Returns the widened table together with the mutated
instance state. -/
def Lag.transform (s : Lag) (X : Table) : Except PyErr (Lag × Table) :=
  match s.genPhase X with
  | .error e => .error e
  | .ok sX =>
    match (if s.dropNaRows then castColsToOriginal sX.1.columnDtypeMap sX.2.dropna
           else .ok sX.2) with
    | .error e => .error e
    | .ok X2 =>
      match (if s.dropOriginalColumns then X2.dropCols (s.shiftColumns.getD [])
             else .ok X2) with
      | .error e => .error e
      | .ok X3 => .ok (sX.1, X3)

/-- A pandas `Timestamp`, reduced to the calendar/clock attributes the
extractor's getters project out. -/
structure Timestamp where
  year : Int
  month : Int
  day : Int
  dayofyear : Int
  dayofweek : Int
  hour : Int
  minute : Int
  second : Int
deriving DecidableEq

/-- Value of a generated feature cell: the getters return ints except the
is-weekend getter, which returns a bool. -/
inductive DTVal where
  | i (n : Int)
  | b (v : Bool)
deriving DecidableEq

/-- Column of the extractor's table: timestamps (a source column) or
generated scalar values. -/
inductive DTCol where
  | tsCol (vs : List Timestamp)
  | valCol (vs : List DTVal)
deriving DecidableEq

/-- Getter `_get_year`: pure per-value projection. -/
def getYear (dt : Timestamp) : DTVal := .i dt.year

/-- Getter `_get_month`. -/
def getMonth (dt : Timestamp) : DTVal := .i dt.month

/-- Getter `_get_day_of_month` (pandas `.day`). -/
def getDayOfMonth (dt : Timestamp) : DTVal := .i dt.day

/-- Getter `_get_day_of_year` (pandas `.dayofyear`). -/
def getDayOfYear (dt : Timestamp) : DTVal := .i dt.dayofyear

/-- Getter `_get_day_of_week` (pandas `.dayofweek`, 0=Monday). -/
def getDayOfWeek (dt : Timestamp) : DTVal := .i dt.dayofweek

/-- Getter `_get_hour`. -/
def getHour (dt : Timestamp) : DTVal := .i dt.hour

/-- Getter `_get_minute`. -/
def getMinute (dt : Timestamp) : DTVal := .i dt.minute

/-- Getter `_get_second`. -/
def getSecond (dt : Timestamp) : DTVal := .i dt.second

/-- Getter `_get_is_weekend`: the Python `match` on `dayofweek` with cases
`5`, `6` and a wildcard. -/
def getIsWeekend (dt : Timestamp) : DTVal :=
  .b (if dt.dayofweek = 5 then true else if dt.dayofweek = 6 then true else false)

/-- The dict `included_features_and_methods_map` as built in `__init__`,
before exclusions are removed; insertion order as in the source. -/
def includedFeaturesAndMethodsMap0 : List (String × (Timestamp → DTVal)) :=
  [("year", getYear), ("month", getMonth), ("day-of-month", getDayOfMonth),
   ("day-of-year", getDayOfYear), ("day-of-week", getDayOfWeek),
   ("is-weekend", getIsWeekend), ("hour", getHour), ("minute", getMinute),
   ("second", getSecond)]

/-- The nine catalog keys, in insertion order. -/
def dtCatalog : List String := includedFeaturesAndMethodsMap0.map Prod.fst

/-- Python `dict.pop(k)` without a default: `KeyError` when the key is
absent, otherwise remove its entry. -/
def popKey {α : Type} (m : List (String × α)) (k : String) :
    Except PyErr (List (String × α)) :=
  if hasKeyA m k then .ok (m.filter (fun p => ! decide (p.1 = k)))
  else .error .keyError

/-- Sequential pops: the second loop of `handle_excluded_features`. -/
def popFold {α : Type} : List String → List (String × α) →
    Except PyErr (List (String × α))
  | [], m => .ok m
  | f :: fs, m =>
    match popKey m f with
    | .ok m' => popFold fs m'
    | .error e => .error e

/-- Method `handle_excluded_features`: first loop asserts every excluded
name is a key of the (not yet modified) map — the spec's
ConfigurationError — and only then the pops run. -/
def handleExcludedFeatures (excludeFeatures : Option (List String))
    (m : List (String × (Timestamp → DTVal))) :
    Except PyErr (List (String × (Timestamp → DTVal))) :=
  match excludeFeatures with
  | none => .ok m
  | some fs =>
    if fs.all (fun f => hasKeyA m f) then popFold fs m
    else .error .configError

/-- State of `DateTimeFeatures` (`dt_features.py`); field names follow the
Python attributes. -/
structure DateTimeFeatures where
  dtColumns : List String
  excludeFeatures : Option (List String)
  dropOriginalColumns : Bool
  includedFeaturesAndMethodsMap : List (String × (Timestamp → DTVal))

/-- Constructor `DateTimeFeatures.__init__`: store the options, build the
full dispatch map, then validate and apply `exclude_features` — all before
any table exists. -/
def DateTimeFeatures.make (dtColumns : List String)
    (excludeFeatures : Option (List String)) (dropOriginalColumns : Bool) :
    Except PyErr DateTimeFeatures :=
  match handleExcludedFeatures excludeFeatures includedFeaturesAndMethodsMap0 with
  | .ok m => .ok ⟨dtColumns, excludeFeatures, dropOriginalColumns, m⟩
  | .error e => .error e

/-- The extractor's table. -/
structure DTTable where
  cols : List (String × DTCol)

/-- Python `str.upper()` for the ASCII catalog keys: uppercase every
character. -/
def strUpper (s : String) : String := ⟨s.data.map Char.toUpper⟩

/-- Name `_get_new_feature_name`: source name, underscore, uppercased kind. -/
def mkFeatureName (d : String) (kind : String) : String :=
  d ++ "_" ++ strUpper kind

/-- Method `DateTimeFeatures.fit`: returns self unchanged. -/
def DateTimeFeatures.fit (s : DateTimeFeatures) (X : DTTable) : DateTimeFeatures := s

/-- Inner loop of `DateTimeFeatures.transform` for one source column `d`:
for each enabled (kind, method) pair, re-read `X.loc[:, d]` and write
`X.loc[:, name] = X.loc[:, d].map(method)`.  Reading a missing column is a
`KeyError`; `.map` of an attribute getter over non-timestamp values is a
`TypeError`-class failure. -/
def dtGenFold (d : String) : List (String × (Timestamp → DTVal)) → DTTable →
    Except PyErr DTTable
  | [], X => .ok X
  | p :: ps, X =>
    match lookupA X.cols d with
    | some (DTCol.tsCol vs) =>
        dtGenFold d ps ⟨setA X.cols (mkFeatureName d p.1) (DTCol.valCol (vs.map p.2))⟩
    | some (DTCol.valCol _) => .error .typeError
    | none => .error .keyError

/-- Outer loop of `DateTimeFeatures.transform` over `dt_columns`. -/
def dtColsFold (m : List (String × (Timestamp → DTVal))) : List String → DTTable →
    Except PyErr DTTable
  | [], X => .ok X
  | d :: ds, X =>
    match dtGenFold d m X with
    | .ok X' => dtColsFold m ds X'
    | .error e => .error e

/-- Method `DateTimeFeatures.transform`: generate all feature columns, then
optionally drop the source columns (`X.drop(columns=dt_columns)`). -/
def DateTimeFeatures.transform (s : DateTimeFeatures) (X : DTTable) :
    Except PyErr DTTable :=
  match dtColsFold s.includedFeaturesAndMethodsMap s.dtColumns X with
  | .error e => .error e
  | .ok X1 =>
    if s.dropOriginalColumns then
      if s.dtColumns.all (fun c => hasKeyA X1.cols c) then
        .ok ⟨X1.cols.filter (fun p => ! memB s.dtColumns p.1)⟩
      else .error .keyError
    else .ok X1

/-- Keys of the enabled dispatch map, in order. -/
def DateTimeFeatures.enabledKeys (s : DateTimeFeatures) : List String :=
  s.includedFeaturesAndMethodsMap.map Prod.fst

/-- The generated column names for one source column, in catalog order. -/
def DateTimeFeatures.genNamesFor (s : DateTimeFeatures) (d : String) : List String :=
  s.includedFeaturesAndMethodsMap.map (fun p => mkFeatureName d p.1)

/-- Concrete table whose second column's name collides with a lag name
generated from the first (used to refute C1 as literally stated). -/
def tblCollide : Table :=
  ⟨[("y", ⟨Dtype.int, [some 1, some 2, some 3]⟩),
    ("y_LAG-1", ⟨Dtype.int, [some 10, some 20, some 30]⟩)]⟩

/-- Lag state shifting both columns of `tblCollide` by one period. -/
def lagCollide : Lag := ⟨1, some ["y", "y_LAG-1"], false, false, false, [], []⟩

/-- Concrete table for the C4 counterexample. -/
def tblDropCollide : Table :=
  ⟨[("x", ⟨Dtype.int, [some 1, some 2]⟩), ("x_LAG-1", ⟨Dtype.int, [some 3, some 4]⟩)]⟩

/-- Lag state with `drop_original_columns=True` whose source set contains a
generated name. -/
def lagDropCollide : Lag := ⟨1, some ["x", "x_LAG-1"], false, true, false, [], []⟩

/-- Lag state with both `drop_na_rows=True` and `drop_original_columns=True`
whose source set contains a generated name: the tracked generated column
`x_LAG-1` is dropped from the returned table. -/
def lagNaDropCollide : Lag := ⟨1, some ["x", "x_LAG-1"], true, true, false, [], []⟩

/-- Concrete table for the C10 counterexample: a pre-existing column named
like the lag column about to be generated. -/
def tblOverwrite : Table :=
  ⟨[("x", ⟨Dtype.int, [some 1]⟩), ("x_LAG-1", ⟨Dtype.int, [some 5]⟩)]⟩

/-- Lag state that overwrites `tblOverwrite`'s second column. -/
def lagOverwrite : Lag := ⟨1, some ["x"], false, false, false, [], []⟩

/-- The table of the spec's section-8 scenario (`x1 = [1,2,3,4,5]`). -/
def tblW : Table :=
  ⟨[("x1", ⟨Dtype.int, [some 1, some 2, some 3, some 4, some 5]⟩)]⟩

/-- The spec's section-8 configuration: `periods=2`, one column per max
period. -/
def lagW : Lag := ⟨2, some ["x1"], false, false, true, [], []⟩

/-- Variant of `lagW` with `drop_na_rows=True`. -/
def lagWna : Lag := ⟨1, some ["x1"], true, false, false, [], []⟩

/-- Variant of `lagW` with `drop_original_columns=True`. -/
def lagWdrop : Lag := ⟨1, some ["x1"], false, true, false, [], []⟩

/-- Lag state with unset `shift_columns` (fit will resolve them). -/
def lagNoCols : Lag := ⟨1, none, false, false, false, [], []⟩

section AssocLemmas

variable {α : Type}

theorem lookupA_setA_self (m : List (String × α)) (k : String) (v : α) :
    lookupA (setA m k v) k = some v := by
  induction m with
  | nil => simp [setA, lookupA]
  | cons p ps ih =>
    by_cases h : p.1 = k
    · simp [setA, h, lookupA]
    · simp [setA, h, lookupA, ih]

theorem lookupA_setA_ne (m : List (String × α)) (k k' : String) (v : α)
    (h : k ≠ k') : lookupA (setA m k v) k' = lookupA m k' := by
  induction m with
  | nil => simp [setA, lookupA, h]
  | cons p ps ih =>
    obtain ⟨a, b⟩ := p
    by_cases hp : a = k
    · subst hp
      simp [setA, lookupA, h]
    · by_cases hk' : a = k'
      · subst hk'
        simp [setA, lookupA, hp]
      · simp [setA, hp, lookupA, hk', ih]

theorem keys_setA (m : List (String × α)) (k : String) (v : α) :
    (setA m k v).map Prod.fst =
      (if k ∈ m.map Prod.fst then m.map Prod.fst else m.map Prod.fst ++ [k]) := by
  induction m with
  | nil => simp [setA]
  | cons p ps ih =>
    by_cases h : p.1 = k
    · simp [setA, h]
    · have h' : ¬ k = p.1 := fun hh => h hh.symm
      by_cases hk : k ∈ ps.map Prod.fst
      · simp [setA, h, ih, hk, h']
      · simp [setA, h, ih, hk, h']

theorem mem_keys_setA (m : List (String × α)) (k n : String) (v : α) :
    n ∈ (setA m k v).map Prod.fst ↔ n ∈ m.map Prod.fst ∨ n = k := by
  rw [keys_setA]
  by_cases hk : k ∈ m.map Prod.fst
  · simp only [hk, if_true]
    constructor
    · exact fun h => Or.inl h
    · rintro (h | rfl)
      · exact h
      · exact hk
  · simp [hk]

theorem mem_of_mem_setA (m : List (String × α)) (k : String) (v : α)
    (q : String × α) (hq : q ∈ setA m k v) : q ∈ m ∨ q = (k, v) := by
  induction m with
  | nil => simp [setA] at hq; simp [hq]
  | cons p ps ih =>
    by_cases h : p.1 = k
    · simp only [setA, h, if_true, List.mem_cons] at hq
      rcases hq with hq | hq
      · exact Or.inr hq
      · exact Or.inl (List.mem_cons_of_mem _ hq)
    · simp only [setA, h, if_false, List.mem_cons] at hq
      rcases hq with hq | hq
      · exact Or.inl (by simp [hq])
      · rcases ih hq with h' | h'
        · exact Or.inl (List.mem_cons_of_mem _ h')
        · exact Or.inr h'

theorem lookupA_mem (m : List (String × α)) (k : String) (v : α)
    (h : lookupA m k = some v) : (k, v) ∈ m := by
  induction m with
  | nil => simp [lookupA] at h
  | cons p ps ih =>
    obtain ⟨a, b⟩ := p
    by_cases hp : a = k
    · simp only [lookupA, hp, if_true, Option.some.injEq] at h
      subst hp
      subst h
      exact List.mem_cons_self _ _
    · simp only [lookupA, hp, if_false] at h
      exact List.mem_cons_of_mem _ (ih h)

theorem lookupA_isSome_iff (m : List (String × α)) (k : String) :
    (∃ v, lookupA m k = some v) ↔ k ∈ m.map Prod.fst := by
  induction m with
  | nil => simp [lookupA]
  | cons p ps ih =>
    by_cases hp : p.1 = k
    · simp [lookupA, hp]
    · have hp' : ¬ k = p.1 := fun hh => hp hh.symm
      simp [lookupA, hp, ih, hp']

theorem keys_nodup_setA (m : List (String × α)) (k : String) (v : α)
    (h : (m.map Prod.fst).Nodup) : ((setA m k v).map Prod.fst).Nodup := by
  rw [keys_setA]
  by_cases hk : k ∈ m.map Prod.fst
  · simpa [hk] using h
  · simp only [hk, if_false]
    refine h.append (List.nodup_singleton k) ?_
    intro x hx hxk
    simp only [List.mem_singleton] at hxk
    exact hk (hxk ▸ hx)

theorem lookupA_eq_of_mem_nodup (m : List (String × α)) (k : String) (v : α)
    (hnd : (m.map Prod.fst).Nodup) (h : (k, v) ∈ m) : lookupA m k = some v := by
  induction m with
  | nil => simp at h
  | cons p ps ih =>
    rw [List.map_cons, List.nodup_cons] at hnd
    rcases List.mem_cons.mp h with rfl | h'
    · simp [lookupA]
    · have hp : p.1 ≠ k := by
        intro hk
        exact hnd.1 (hk ▸ List.mem_map.mpr ⟨(k, v), h', rfl⟩)
      simp only [lookupA, hp, if_false]
      exact ih hnd.2 h'

end AssocLemmas

section BasicLemmas

theorem memB_iff (l : List String) (n : String) : memB l n = true ↔ n ∈ l := by
  simp [memB, List.any_eq_true]

theorem hasKeyA_iff {α : Type} (m : List (String × α)) (k : String) :
    hasKeyA m k = true ↔ k ∈ m.map Prod.fst := by
  simp only [hasKeyA, List.any_eq_true, decide_eq_true_eq, List.mem_map]

theorem length_shiftVals (k : Nat) (vs : List Cell) :
    (shiftVals k vs).length = vs.length := by
  simp [shiftVals, List.length_take]

theorem getElem?_shiftVals (k : Nat) (vs : List Cell) (i : Nat) (h : i < vs.length) :
    (shiftVals k vs)[i]? = if i < k then some none else vs[i - k]? := by
  rw [shiftVals, List.getElem?_take, if_pos h]
  by_cases hik : i < k
  · rw [List.getElem?_append_left (by simpa using hik)]
    simp [List.getElem?_replicate, hik]
  · rw [List.getElem?_append_right (by simpa using Nat.le_of_not_lt hik)]
    simp [hik]

theorem mem_colNames_setCol (X : Table) (n m : String) (c : Col) :
    m ∈ (X.setCol n c).colNames ↔ m ∈ X.colNames ∨ m = n :=
  mem_keys_setA X.cols n m c

theorem getCol_setCol_self (X : Table) (n : String) (c : Col) :
    (X.setCol n c).getCol n = some c :=
  lookupA_setA_self X.cols n c

theorem getCol_setCol_ne (X : Table) (n m : String) (c : Col) (h : n ≠ m) :
    (X.setCol n c).getCol m = X.getCol m :=
  lookupA_setA_ne X.cols n m c h

theorem getCol_isSome_of_mem (X : Table) (n : String) (h : n ∈ X.colNames) :
    ∃ c, X.getCol n = some c :=
  (lookupA_isSome_iff X.cols n).mpr h

theorem mem_colNames_of_getCol (X : Table) (n : String) (c : Col)
    (h : X.getCol n = some c) : n ∈ X.colNames :=
  (lookupA_isSome_iff X.cols n).mp ⟨c, h⟩

end BasicLemmas

section GenFoldLemmas

theorem genStep_ok_iff {s : Lag} {X : Table} {orig newName : String} {k : Int}
    {r : Lag × Table} :
    Lag.genStep s X orig newName k = .ok r ↔
      0 < k ∧ ∃ c, X.getCol orig = some c ∧
        r = ({ s with newColumns := s.newColumns ++ [newName]
                      columnDtypeMap := setA s.columnDtypeMap newName c.dtype },
             X.setCol newName (shiftCol k.toNat c)) := by
  unfold Lag.genStep
  by_cases hk : 0 < k
  · simp only [hk, if_true, true_and]
    cases hX : X.getCol orig with
    | none => simp
    | some c =>
      constructor
      · intro h
        exact ⟨c, rfl, by cases h; rfl⟩
      · rintro ⟨c', hc', rfl⟩
        cases hc'
        rfl
  · simp [hk]

theorem genFold_cons_ok {p : String × Int} {ps : List (String × Int)} {s : Lag}
    {X : Table} {r : Lag × Table} (h : genFold (p :: ps) s X = .ok r) :
    0 < p.2 ∧ ∃ c, X.getCol p.1 = some c ∧
      genFold ps
        ({ s with newColumns := s.newColumns ++ [mkLagName p.1 p.2]
                  columnDtypeMap := setA s.columnDtypeMap (mkLagName p.1 p.2) c.dtype })
        (X.setCol (mkLagName p.1 p.2) (shiftCol p.2.toNat c)) = .ok r := by
  unfold genFold at h
  cases hst : Lag.genStep s X p.1 (mkLagName p.1 p.2) p.2 with
  | error e => rw [hst] at h; cases h
  | ok sX =>
    rw [hst] at h
    obtain ⟨hk, c, hc, rfl⟩ := genStep_ok_iff.mp hst
    exact ⟨hk, c, hc, h⟩

theorem genFold_nil_ok {s : Lag} {X : Table} {r : Lag × Table}
    (h : genFold [] s X = .ok r) : r = (s, X) := by
  unfold genFold at h
  cases h
  rfl

theorem genFold_state_of_ok :
    ∀ (plan : List (String × Int)) (s : Lag) (X : Table) (s' : Lag) (X' : Table),
      genFold plan s X = .ok (s', X') →
      s'.newColumns = s.newColumns ++ planNames plan ∧
      s'.nPeriods = s.nPeriods ∧ s'.shiftColumns = s.shiftColumns ∧
      s'.dropNaRows = s.dropNaRows ∧ s'.dropOriginalColumns = s.dropOriginalColumns ∧
      s'.onlyOneColumnForPeriods = s.onlyOneColumnForPeriods := by
  intro plan
  induction plan with
  | nil =>
    intro s X s' X' h
    injection genFold_nil_ok h with h1 h2
    subst h1
    simp [planNames]
  | cons p ps ih =>
    intro s X s' X' h
    obtain ⟨hk, c, hc, hrest⟩ := genFold_cons_ok h
    obtain ⟨h1, h2, h3, h4, h5, h6⟩ := ih _ _ _ _ hrest
    refine ⟨?_, by simpa using h2, by simpa using h3, by simpa using h4,
      by simpa using h5, by simpa using h6⟩
    rw [h1]
    simp [planNames]

theorem genFold_table_of_ok :
    ∀ (plan : List (String × Int)) (s : Lag) (X : Table) (s' : Lag) (X' : Table),
      genFold plan s X = .ok (s', X') →
      (∀ n, n ∈ X'.colNames ↔ n ∈ X.colNames ∨ n ∈ planNames plan) ∧
      (∀ n, n ∉ planNames plan → X'.getCol n = X.getCol n) := by
  intro plan
  induction plan with
  | nil =>
    intro s X s' X' h
    injection genFold_nil_ok h with h1 h2
    subst h2
    simp [planNames]
  | cons p ps ih =>
    intro s X s' X' h
    obtain ⟨hk, c, hc, hrest⟩ := genFold_cons_ok h
    obtain ⟨ih1, ih2⟩ := ih _ _ _ _ hrest
    have hnames : planNames (p :: ps) = mkLagName p.1 p.2 :: planNames ps := rfl
    constructor
    · intro n
      rw [ih1 n, mem_colNames_setCol, hnames]
      simp only [List.mem_cons]
      tauto
    · intro n hn
      rw [hnames, List.mem_cons, not_or] at hn
      rw [ih2 n hn.2, getCol_setCol_ne _ _ _ _ (fun hh => hn.1 hh.symm)]

theorem genFold_map_of_ok :
    ∀ (plan : List (String × Int)) (s : Lag) (X : Table) (s' : Lag) (X' : Table),
      genFold plan s X = .ok (s', X') →
      (∀ n, n ∉ planNames plan →
        lookupA s'.columnDtypeMap n = lookupA s.columnDtypeMap n) ∧
      (∀ q ∈ s'.columnDtypeMap, q ∈ s.columnDtypeMap ∨ q.1 ∈ planNames plan) ∧
      ((s.columnDtypeMap.map Prod.fst).Nodup →
        (s'.columnDtypeMap.map Prod.fst).Nodup) ∧
      (∀ n ∈ planNames plan, ∃ d, lookupA s'.columnDtypeMap n = some d) := by
  intro plan
  induction plan with
  | nil =>
    intro s X s' X' h
    injection genFold_nil_ok h with h1 h2
    subst h1
    simp [planNames]
  | cons p ps ih =>
    intro s X s' X' h
    obtain ⟨hk, c, hc, hrest⟩ := genFold_cons_ok h
    obtain ⟨ih1, ih2, ih3, ih4⟩ := ih _ _ _ _ hrest
    have hnames : planNames (p :: ps) = mkLagName p.1 p.2 :: planNames ps := rfl
    refine ⟨?_, ?_, ?_, ?_⟩
    · intro n hn
      rw [hnames, List.mem_cons, not_or] at hn
      rw [ih1 n hn.2]
      exact lookupA_setA_ne _ _ _ _ (fun hh => hn.1 hh.symm)
    · intro q hq
      rcases ih2 q hq with hq' | hq'
      · rcases mem_of_mem_setA _ _ _ _ hq' with hq'' | hq''
        · exact Or.inl hq''
        · refine Or.inr ?_
          rw [hnames, hq'']
          exact List.mem_cons_self _ _
      · refine Or.inr ?_
        rw [hnames]
        exact List.mem_cons_of_mem _ hq'
    · intro hnd
      exact ih3 (keys_nodup_setA _ _ _ hnd)
    · intro n hn
      rw [hnames, List.mem_cons] at hn
      rcases hn with hn | hn
      · by_cases hmem : n ∈ planNames ps
        · exact ih4 n hmem
        · rw [ih1 n hmem, hn, lookupA_setA_self]
          exact ⟨c.dtype, rfl⟩
      · exact ih4 n hn

theorem genFold_lengths_of_ok :
    ∀ (plan : List (String × Int)) (s : Lag) (X : Table) (s' : Lag) (X' : Table)
      (N : Nat), genFold plan s X = .ok (s', X') →
      (∀ p ∈ X.cols, p.2.values.length = N) →
      (∀ p ∈ X'.cols, p.2.values.length = N) := by
  intro plan
  induction plan with
  | nil =>
    intro s X s' X' N h hlen
    injection genFold_nil_ok h with h1 h2
    subst h2
    exact hlen
  | cons p ps ih =>
    intro s X s' X' N h hlen
    obtain ⟨hk, c, hc, hrest⟩ := genFold_cons_ok h
    refine ih _ _ _ _ N hrest ?_
    intro q hq
    rcases mem_of_mem_setA _ _ _ _ hq with hq' | hq'
    · exact hlen q hq'
    · have : c.values.length = N := hlen _ (lookupA_mem _ _ _ hc)
      rw [hq']
      simpa [shiftCol, length_shiftVals] using this

theorem genFold_isOk :
    ∀ (plan : List (String × Int)) (s : Lag) (X : Table),
      (∀ p ∈ plan, 0 < p.2) → (∀ p ∈ plan, p.1 ∈ X.colNames) →
      ∃ s' X', genFold plan s X = .ok (s', X') := by
  intro plan
  induction plan with
  | nil =>
    intro s X _ _
    exact ⟨s, X, rfl⟩
  | cons p ps ih =>
    intro s X hk hc
    obtain ⟨c, hcc⟩ := getCol_isSome_of_mem X p.1 (hc p (List.mem_cons_self _ _))
    have hstep : Lag.genStep s X p.1 (mkLagName p.1 p.2) p.2 =
        .ok ({ s with newColumns := s.newColumns ++ [mkLagName p.1 p.2]
                      columnDtypeMap := setA s.columnDtypeMap (mkLagName p.1 p.2) c.dtype },
             X.setCol (mkLagName p.1 p.2) (shiftCol p.2.toNat c)) :=
      genStep_ok_iff.mpr ⟨hk p (List.mem_cons_self _ _), c, hcc, rfl⟩
    obtain ⟨s', X', hfold⟩ := ih _ _
      (fun q hq => hk q (List.mem_cons_of_mem _ hq))
      (fun q hq => (mem_colNames_setCol _ _ _ _).mpr
        (Or.inl (hc q (List.mem_cons_of_mem _ hq))))
    refine ⟨s', X', ?_⟩
    unfold genFold
    rw [hstep]
    exact hfold

theorem genFold_values_of_ok :
    ∀ (plan : List (String × Int)) (s : Lag) (X : Table) (s' : Lag) (X' : Table),
      genFold plan s X = .ok (s', X') →
      (planNames plan).Nodup →
      (∀ p ∈ plan, ∀ q ∈ plan, mkLagName p.1 p.2 ≠ q.1) →
      ∀ p ∈ plan, ∀ c, X.getCol p.1 = some c →
        X'.getCol (mkLagName p.1 p.2) = some (shiftCol p.2.toNat c) ∧
        lookupA s'.columnDtypeMap (mkLagName p.1 p.2) = some c.dtype := by
  intro plan
  induction plan with
  | nil =>
    intro s X s' X' _ _ _ p hp
    simp at hp
  | cons p0 ps ih =>
    intro s X s' X' h hnd hdisj p hp c hc
    obtain ⟨hk, c0, hc0, hrest⟩ := genFold_cons_ok h
    have hnames : planNames (p0 :: ps) = mkLagName p0.1 p0.2 :: planNames ps := rfl
    rw [hnames, List.nodup_cons] at hnd
    rcases List.mem_cons.mp hp with rfl | hp'
    · have hc' : c = c0 := by rw [hc] at hc0; exact (Option.some.injEq _ _ ▸ hc0).symm ▸ rfl
      subst hc'
      obtain ⟨ht1, ht2⟩ := genFold_table_of_ok _ _ _ _ _ hrest
      obtain ⟨hm1, _, _, _⟩ := genFold_map_of_ok _ _ _ _ _ hrest
      constructor
      · rw [ht2 _ hnd.1, getCol_setCol_self]
      · rw [hm1 _ hnd.1, lookupA_setA_self]
    · have hne : mkLagName p0.1 p0.2 ≠ p.1 :=
        hdisj p0 (List.mem_cons_self _ _) p (List.mem_cons_of_mem _ hp')
      have hc1 : (X.setCol (mkLagName p0.1 p0.2) (shiftCol p0.2.toNat c0)).getCol p.1 =
          some c := by rw [getCol_setCol_ne _ _ _ _ hne]; exact hc
      exact ih _ _ _ _ hrest hnd.2
        (fun a ha b hb => hdisj a (List.mem_cons_of_mem _ ha) b (List.mem_cons_of_mem _ hb))
        p hp' c hc1

end GenFoldLemmas

section PostLemmas

theorem colNames_dropna (X : Table) : X.dropna.colNames = X.colNames := by
  simp [Table.dropna, Table.colNames]

theorem lookupA_map_snd {α β : Type} (f : α → β) (m : List (String × α)) (k : String) :
    lookupA (m.map (fun p => (p.1, f p.2))) k = (lookupA m k).map f := by
  induction m with
  | nil => simp [lookupA]
  | cons p ps ih =>
    by_cases hp : p.1 = k
    · simp [lookupA, hp]
    · simp [lookupA, hp, ih]

theorem getCol_dropna (X : Table) (n : String) (c : Col) (h : X.getCol n = some c) :
    X.dropna.getCol n =
      some ⟨c.dtype, X.keepRows.map (fun i => c.values.getD i none)⟩ := by
  show lookupA _ n = _
  unfold Table.dropna
  rw [lookupA_map_snd (fun cc : Col =>
    ({ dtype := cc.dtype,
       values := X.keepRows.map (fun i => cc.values.getD i none) } : Col)) X.cols n]
  rw [show lookupA X.cols n = some c from h]
  rfl

theorem no_missing_dropna (X : Table) :
    ∀ p ∈ X.dropna.cols, ∀ v ∈ p.2.values, v ≠ none := by
  intro p hp v hv
  unfold Table.dropna at hp
  simp only [List.mem_map] at hp
  obtain ⟨q, hq, rfl⟩ := hp
  simp only [List.mem_map] at hv
  obtain ⟨i, hi, rfl⟩ := hv
  unfold Table.keepRows at hi
  rw [List.mem_filter] at hi
  have hrow : X.missingRow i = false := by
    cases h : X.missingRow i
    · rfl
    · rw [h] at hi; simp at hi
  unfold Table.missingRow at hrow
  rw [List.any_eq_false] at hrow
  have := hrow q hq
  intro hnone
  rw [hnone] at this
  simp at this

theorem castCol_ok_of_no_missing (c : Col) (t : Dtype)
    (h : ∀ v ∈ c.values, v ≠ none) :
    castCol c t = .ok { dtype := t, values := c.values } := by
  unfold castCol
  have hany : c.values.any Option.isNone = false := by
    rw [List.any_eq_false]
    intro v hv
    cases v with
    | none => exact absurd rfl (h none hv)
    | some a => simp
  rw [if_neg]
  intro hcl
  rw [hany] at hcl
  exact Bool.false_ne_true hcl.2

theorem castColsToOriginal_ok :
    ∀ (m : List (String × Dtype)) (X : Table),
      (∀ q ∈ m, q.1 ∈ X.colNames) →
      (∀ p ∈ X.cols, ∀ v ∈ p.2.values, v ≠ none) →
      ∃ X', castColsToOriginal m X = .ok X' ∧
        X'.colNames = X.colNames ∧
        (∀ p ∈ X'.cols, ∀ v ∈ p.2.values, v ≠ none) ∧
        (∀ n, n ∉ m.map Prod.fst → X'.getCol n = X.getCol n) ∧
        ((m.map Prod.fst).Nodup →
          ∀ q ∈ m, ∃ c, X'.getCol q.1 = some c ∧ c.dtype = q.2) := by
  intro m
  induction m with
  | nil =>
    intro X _ hnm
    exact ⟨X, rfl, rfl, hnm, fun n _ => rfl, fun _ q hq => absurd hq (List.not_mem_nil q)⟩
  | cons q0 qs ih =>
    intro X hkeys hnm
    obtain ⟨c0, hc0⟩ := getCol_isSome_of_mem X q0.1 (hkeys q0 (List.mem_cons_self _ _))
    have hc0nm : ∀ v ∈ c0.values, v ≠ none := hnm _ (lookupA_mem _ _ _ hc0)
    have hcast := castCol_ok_of_no_missing c0 q0.2 hc0nm
    have hkeys1 : ∀ q ∈ qs, q.1 ∈ (X.setCol q0.1 ⟨q0.2, c0.values⟩).colNames := by
      intro q hq
      exact (mem_colNames_setCol _ _ _ _).mpr (Or.inl (hkeys q (List.mem_cons_of_mem _ hq)))
    have hnm1 : ∀ p ∈ (X.setCol q0.1 ⟨q0.2, c0.values⟩).cols, ∀ v ∈ p.2.values, v ≠ none := by
      intro p hp
      rcases mem_of_mem_setA _ _ _ _ hp with hp' | hp'
      · exact hnm p hp'
      · rw [hp']
        exact hc0nm
    obtain ⟨X', hX', hn1, hn2, hn3, hn4⟩ := ih _ hkeys1 hnm1
    have hmem0 : q0.1 ∈ List.map Prod.fst X.cols := hkeys q0 (List.mem_cons_self _ _)
    have hkeysX : (X.setCol q0.1 ⟨q0.2, c0.values⟩).colNames = X.colNames := by
      unfold Table.colNames Table.setCol
      rw [keys_setA, if_pos hmem0]
    refine ⟨X', ?_, by rw [hn1, hkeysX], hn2, ?_, ?_⟩
    · unfold castColsToOriginal
      rw [hc0]
      show (match castCol c0 q0.2 with
            | Except.ok c' => castColsToOriginal qs (X.setCol q0.1 c')
            | Except.error e => Except.error e) = Except.ok X'
      rw [hcast]
      exact hX'
    · intro n hn
      simp only [List.map_cons, List.mem_cons, not_or] at hn
      rw [hn3 n hn.2, getCol_setCol_ne _ _ _ _ (fun hh => hn.1 hh.symm)]
    · intro hnd q hq
      rw [List.map_cons, List.nodup_cons] at hnd
      rcases List.mem_cons.mp hq with rfl | hq'
      · refine ⟨⟨q.2, c0.values⟩, ?_, rfl⟩
        rw [hn3 q.1 hnd.1, getCol_setCol_self]
      · exact hn4 hnd.2 q hq'

theorem castCol_ok_elim {c : Col} {t : Dtype} {c' : Col}
    (h : castCol c t = .ok c') : c' = ⟨t, c.values⟩ := by
  unfold castCol at h
  by_cases hcond : (t = Dtype.int ∨ t = Dtype.bool) ∧ c.values.any Option.isNone = true
  · rw [if_pos hcond] at h; cases h
  · rw [if_neg hcond] at h
    injection h with h'
    exact h'.symm

theorem castColsToOriginal_of_ok :
    ∀ (m : List (String × Dtype)) (X X' : Table),
      castColsToOriginal m X = .ok X' →
      (∀ p ∈ X.cols, ∀ v ∈ p.2.values, v ≠ none) →
      (∀ p ∈ X'.cols, ∀ v ∈ p.2.values, v ≠ none) ∧
      (∀ n, n ∉ m.map Prod.fst → X'.getCol n = X.getCol n) ∧
      ((m.map Prod.fst).Nodup →
        ∀ q ∈ m, ∃ c, X'.getCol q.1 = some c ∧ c.dtype = q.2) := by
  intro m
  induction m with
  | nil =>
    intro X X' h hnm
    injection h with h'
    subst h'
    exact ⟨hnm, fun n _ => rfl, fun _ q hq => absurd hq (List.not_mem_nil q)⟩
  | cons q0 qs ih =>
    intro X X' h hnm
    unfold castColsToOriginal at h
    split at h
    · cases h
    · rename_i c0 hc0
      split at h
      · rename_i c' hcast
        have hc' : c' = ⟨q0.2, c0.values⟩ := castCol_ok_elim hcast
        subst hc'
        have hc0nm : ∀ v ∈ c0.values, v ≠ none := hnm _ (lookupA_mem _ _ _ hc0)
        have hnm1 : ∀ p ∈ (X.setCol q0.1 ⟨q0.2, c0.values⟩).cols,
            ∀ v ∈ p.2.values, v ≠ none := by
          intro p hp
          rcases mem_of_mem_setA _ _ _ _ hp with hp' | hp'
          · exact hnm p hp'
          · rw [hp']
            exact hc0nm
        obtain ⟨ihnm, ihpres, ihdt⟩ := ih _ _ h hnm1
        refine ⟨ihnm, ?_, ?_⟩
        · intro n hn
          simp only [List.map_cons, List.mem_cons, not_or] at hn
          rw [ihpres n hn.2, getCol_setCol_ne _ _ _ _ (fun hh => hn.1 hh.symm)]
        · intro hnd q hq
          rw [List.map_cons, List.nodup_cons] at hnd
          rcases List.mem_cons.mp hq with rfl | hq'
          · refine ⟨⟨q.2, c0.values⟩, ?_, rfl⟩
            rw [ihpres q.1 hnd.1, getCol_setCol_self]
          · exact ihdt hnd.2 q hq'
      · cases h

theorem lookupA_filter_not_mem {α : Type} (m : List (String × α))
    (cs : List String) (n : String) (hn : n ∉ cs) :
    lookupA (m.filter (fun p => ! memB cs p.1)) n = lookupA m n := by
  induction m with
  | nil => simp [lookupA]
  | cons p ps ih =>
    obtain ⟨a, b⟩ := p
    by_cases hp : a = n
    · subst hp
      have hm : memB cs a = false := by
        cases hm : memB cs a
        · rfl
        · exact absurd ((memB_iff cs a).mp hm) hn
      simp [List.filter, hm, lookupA]
    · cases hm : memB cs a
      · simpa [List.filter, hm, lookupA, hp] using ih
      · simpa [List.filter, hm, lookupA, hp] using ih

theorem lookupA_filter_mem {α : Type} (m : List (String × α))
    (cs : List String) (n : String) (hn : n ∈ cs) :
    lookupA (m.filter (fun p => ! memB cs p.1)) n = none := by
  induction m with
  | nil => simp [lookupA]
  | cons p ps ih =>
    obtain ⟨a, b⟩ := p
    by_cases hp : a = n
    · subst hp
      have hm : memB cs a = true := (memB_iff cs a).mpr hn
      simpa [List.filter, hm] using ih
    · cases hm : memB cs a
      · simpa [List.filter, hm, lookupA, hp] using ih
      · simpa [List.filter, hm, lookupA, hp] using ih

theorem dropCols_ok_elim {X : Table} {cs : List String} {X' : Table}
    (h : X.dropCols cs = .ok X') :
    X'.cols = X.cols.filter (fun p => ! memB cs p.1) := by
  unfold Table.dropCols at h
  by_cases hall : cs.all (fun c => hasKeyA X.cols c) = true
  · rw [if_pos hall] at h
    injection h with h'
    rw [← h']
  · rw [if_neg hall] at h
    cases h

theorem dropCols_ok (X : Table) (cs : List String)
    (h : ∀ c ∈ cs, c ∈ X.colNames) :
    ∃ X', X.dropCols cs = .ok X' ∧
      (∀ n, n ∈ X'.colNames ↔ n ∈ X.colNames ∧ n ∉ cs) ∧
      (∀ n, n ∉ cs → X'.getCol n = X.getCol n) := by
  have hall : cs.all (fun c => hasKeyA X.cols c) = true := by
    rw [List.all_eq_true]
    intro c hc
    exact (hasKeyA_iff _ _).mpr (h c hc)
  refine ⟨⟨X.cols.filter (fun p => ! memB cs p.1)⟩, ?_, ?_, ?_⟩
  · unfold Table.dropCols
    rw [if_pos hall]
  · intro n
    unfold Table.colNames
    simp only [List.mem_map, List.mem_filter, Bool.not_eq_eq_eq_not, Bool.not_true]
    constructor
    · rintro ⟨p, ⟨hp, hmem⟩, rfl⟩
      refine ⟨⟨p, hp, rfl⟩, ?_⟩
      intro hin
      rw [(memB_iff cs p.1).mpr hin] at hmem
      cases hmem
    · rintro ⟨⟨p, hp, rfl⟩, hnin⟩
      refine ⟨p, ⟨hp, ?_⟩, rfl⟩
      cases hm : memB cs p.1
      · rfl
      · exact absurd ((memB_iff cs p.1).mp hm) hnin
  · intro n hn
    show lookupA _ n = lookupA X.cols n
    induction X.cols with
    | nil => simp [lookupA]
    | cons p ps ih =>
      obtain ⟨a, b⟩ := p
      by_cases hp : a = n
      · subst hp
        have hm : memB cs a = false := by
          cases hm : memB cs a
          · rfl
          · exact absurd ((memB_iff cs a).mp hm) hn
        simp [List.filter, hm, lookupA]
      · cases hm : memB cs a
        · simpa [List.filter, hm, lookupA, hp] using ih
        · simpa [List.filter, hm, lookupA, hp] using ih

end PostLemmas

section PlanLemmas

theorem periodList_pos (s : Lag) (h : 0 < s.nPeriods) :
    ∀ k ∈ s.periodList, 0 < k := by
  intro k hk
  unfold Lag.periodList at hk
  by_cases hone : s.onlyOneColumnForPeriods
  · rw [if_pos hone] at hk
    rcases List.mem_singleton.mp hk with rfl
    exact h
  · rw [if_neg hone] at hk
    rw [List.mem_map] at hk
    obtain ⟨i, _, rfl⟩ := hk
    exact Int.ofNat_pos.mpr (Nat.succ_pos i)

theorem mem_genPlan (s : Lag) (cs : List String) (p : String × Int) :
    p ∈ s.genPlan cs ↔ p.1 ∈ cs ∧ p.2 ∈ s.periodList := by
  obtain ⟨c, k⟩ := p
  unfold Lag.genPlan
  simp only [List.mem_flatMap, List.mem_map]
  constructor
  · rintro ⟨c', hc', k', hk', h⟩
    injection h with h1 h2
    subst h1; subst h2
    exact ⟨hc', hk'⟩
  · rintro ⟨hc, hk⟩
    exact ⟨c, hc, k, hk, rfl⟩

theorem planNames_genPlan (s : Lag) (cs : List String) :
    planNames (s.genPlan cs) =
      cs.flatMap (fun c => s.periodList.map (fun k => mkLagName c k)) := by
  unfold planNames Lag.genPlan
  rw [List.map_flatMap]
  simp only [List.map_map]
  rfl

theorem mem_planNames_genPlan (s : Lag) (cs : List String) (n : String) :
    n ∈ planNames (s.genPlan cs) ↔
      ∃ c ∈ cs, ∃ k ∈ s.periodList, n = mkLagName c k := by
  rw [planNames_genPlan]
  simp only [List.mem_flatMap, List.mem_map]
  constructor
  · rintro ⟨c, hc, k, hk, rfl⟩
    exact ⟨c, hc, k, hk, rfl⟩
  · rintro ⟨c, hc, k, hk, rfl⟩
    exact ⟨c, hc, k, hk, rfl⟩

end PlanLemmas

section TransformLemmas

theorem transform_ok_elim {s : Lag} {X : Table} {s' : Lag} {X' : Table}
    (h : s.transform X = .ok (s', X')) :
    ∃ cs X1 X2, s.shiftColumns = some cs ∧
      genFold (s.genPlan cs) s X = .ok (s', X1) ∧
      (if s.dropNaRows then castColsToOriginal s'.columnDtypeMap X1.dropna
       else .ok X1) = .ok X2 ∧
      (if s.dropOriginalColumns then X2.dropCols cs else .ok X2) = .ok X' := by
  unfold Lag.transform at h
  split at h
  · cases h
  · rename_i sX hg
    split at h
    · cases h
    · rename_i X2 h2
      split at h
      · cases h
      · rename_i X3 h3
        injection h with h'
        injection h' with ha hb
        subst hb
        unfold Lag.genPhase at hg
        cases hsc : s.shiftColumns with
        | none => rw [hsc] at hg; cases hg
        | some cs =>
          rw [hsc] at hg
          rw [hsc] at h3
          obtain ⟨s1, X1⟩ := sX
          cases ha
          simp only [Option.getD_some] at h3
          exact ⟨cs, X1, X2, rfl, hg, h2, h3⟩

theorem transform_eq_of_genFold {s : Lag} {X : Table} (cs : List String)
    (hsc : s.shiftColumns = some cs) (s1 : Lag) (X1 : Table)
    (hg : genFold (s.genPlan cs) s X = .ok (s1, X1)) :
    s.transform X =
      (match (if s.dropNaRows then castColsToOriginal s1.columnDtypeMap X1.dropna
              else .ok X1) with
       | .error e => .error e
       | .ok X2 =>
         match (if s.dropOriginalColumns then X2.dropCols cs else .ok X2) with
         | .error e => .error e
         | .ok X3 => .ok (s1, X3)) := by
  unfold Lag.transform Lag.genPhase
  simp only [hsc, Option.getD_some]
  rw [hg]

theorem genFold_no_configError :
    ∀ (plan : List (String × Int)) (s : Lag) (X : Table),
      (∀ p ∈ plan, 0 < p.2) → genFold plan s X ≠ .error .configError := by
  intro plan
  induction plan with
  | nil => intro s X _ h; cases h
  | cons p ps ih =>
    intro s X hk h
    unfold genFold at h
    cases hst : Lag.genStep s X p.1 (mkLagName p.1 p.2) p.2 with
    | ok sX =>
      rw [hst] at h
      exact ih _ _ (fun q hq => hk q (List.mem_cons_of_mem _ hq)) h
    | error e =>
      rw [hst] at h
      injection h with h'
      subst h'
      unfold Lag.genStep at hst
      rw [if_pos (hk p (List.mem_cons_self _ _))] at hst
      cases hX : X.getCol p.1 with
      | some c => rw [hX] at hst; cases hst
      | none =>
        rw [hX] at hst
        injection hst with hst
        cases hst

theorem castColsToOriginal_error_elim :
    ∀ (m : List (String × Dtype)) (X : Table) (e : PyErr),
      castColsToOriginal m X = .error e → e = .keyError ∨ e = .castError := by
  intro m
  induction m with
  | nil => intro X e h; cases h
  | cons q qs ih =>
    intro X e h
    unfold castColsToOriginal at h
    split at h
    · injection h with h'
      exact Or.inl h'.symm
    · rename_i c hX
      split at h
      · rename_i c' hc
        exact ih _ _ h
      · rename_i e' hc
        injection h with h'
        subst h'
        unfold castCol at hc
        by_cases hcond : (q.2 = Dtype.int ∨ q.2 = Dtype.bool) ∧ c.values.any Option.isNone = true
        · rw [if_pos hcond] at hc
          injection hc with hc
          exact Or.inr hc.symm
        · rw [if_neg hcond] at hc
          cases hc

theorem dropCols_error_elim (X : Table) (cs : List String) (e : PyErr)
    (h : X.dropCols cs = .error e) : e = .keyError := by
  unfold Table.dropCols at h
  by_cases hall : cs.all (fun c => hasKeyA X.cols c) = true
  · rw [if_pos hall] at h; cases h
  · rw [if_neg hall] at h
    injection h with h'
    exact h'.symm

theorem transform_no_configError (s : Lag) (X : Table) (hn : 0 < s.nPeriods) :
    s.transform X ≠ .error .configError := by
  intro h
  unfold Lag.transform at h
  split at h
  · rename_i e hg
    injection h with h'
    subst h'
    unfold Lag.genPhase at hg
    cases hsc : s.shiftColumns with
    | none => rw [hsc] at hg; cases hg
    | some cs =>
      rw [hsc] at hg
      refine genFold_no_configError _ s X ?_ hg
      intro p hp
      exact periodList_pos s hn p.2 ((mem_genPlan s cs p).mp hp).2
  · rename_i sX hg
    split at h
    · rename_i e h2
      injection h with h'
      subst h'
      cases hb : s.dropNaRows
      · rw [hb] at h2; simp at h2
      · rw [hb] at h2
        simp only [if_true] at h2
        rcases castColsToOriginal_error_elim _ _ _ h2 with h' | h' <;> cases h'
    · rename_i X2 h2
      split at h
      · rename_i e h3
        injection h with h'
        subst h'
        cases hb : s.dropOriginalColumns
        · rw [hb] at h3; simp at h3
        · rw [hb] at h3
          simp only [if_true] at h3
          cases dropCols_error_elim _ _ _ h3
      · cases h

theorem nRows_eq_of_lengths (X : Table) (N : Nat)
    (h : ∀ p ∈ X.cols, p.2.values.length = N) (hne : X.cols ≠ []) :
    X.nRows = N := by
  unfold Table.nRows
  cases hc : X.cols with
  | nil => exact absurd hc hne
  | cons p ps => exact h p (hc ▸ List.mem_cons_self _ _)

theorem postGen_ok (s1 : Lag) (X1 : Table) (b : Bool)
    (hkeys : ∀ q ∈ s1.columnDtypeMap, q.1 ∈ X1.colNames) :
    ∃ X2, (if b then castColsToOriginal s1.columnDtypeMap X1.dropna
           else .ok X1) = .ok X2 ∧
      X2.colNames = X1.colNames ∧ (b = false → X2 = X1) := by
  cases b
  · exact ⟨X1, by simp, rfl, fun _ => rfl⟩
  · have hkeys' : ∀ q ∈ s1.columnDtypeMap, q.1 ∈ X1.dropna.colNames := by
      intro q hq
      rw [colNames_dropna]
      exact hkeys q hq
    obtain ⟨X2, hX2, hn1, _, _, _⟩ :=
      castColsToOriginal_ok s1.columnDtypeMap X1.dropna hkeys' (no_missing_dropna X1)
    refine ⟨X2, by simpa using hX2, ?_, fun hb => by cases hb⟩
    rw [hn1, colNames_dropna]

end TransformLemmas

section ClaimC5

/-- C5: constructing a LagGenerator raises ConfigurationError (the
`assert n_periods > 0`) if and only if `periods ≤ 0`, and it is the only
error construction can raise; construction with positive periods succeeds
and stores that period.  For any instance whose stored period is positive,
a transform call can never surface ConfigurationError — in particular the
internal `assert period > 0` inside column generation never fires — and
`fit` (which is total, so raises nothing) and successful `transform` calls
preserve the stored period, so no later call on an instance constructed
with positive periods ever raises ConfigurationError. -/
theorem C5_configuration_error_only_at_construction :
    (∀ (n : Int) (cols : Option (List String)) (b1 b2 b3 : Bool),
      (Lag.make n cols b1 b2 b3 = .error .configError ↔ n ≤ 0) ∧
      (∀ e, Lag.make n cols b1 b2 b3 = .error e → e = .configError) ∧
      (0 < n → ∃ s, Lag.make n cols b1 b2 b3 = .ok s ∧ s.nPeriods = n)) ∧
    (∀ (s : Lag) (X : Table), 0 < s.nPeriods →
      s.transform X ≠ .error .configError) ∧
    (∀ (s : Lag) (X : Table), (s.fit X).nPeriods = s.nPeriods) ∧
    (∀ (s : Lag) (X : Table) (s' : Lag) (X' : Table),
      s.transform X = .ok (s', X') → s'.nPeriods = s.nPeriods) := by
  refine ⟨?_, ?_, ?_, ?_⟩
  · intro n cols b1 b2 b3
    refine ⟨?_, ?_, ?_⟩
    · unfold Lag.make
      by_cases hn : 0 < n
      · rw [if_pos hn]
        constructor
        · intro h; cases h
        · intro h; omega
      · rw [if_neg hn]
        constructor
        · intro _; omega
        · intro _; rfl
    · intro e h
      unfold Lag.make at h
      by_cases hn : 0 < n
      · rw [if_pos hn] at h; cases h
      · rw [if_neg hn] at h
        injection h with h'
        exact h'.symm
    · intro hn
      unfold Lag.make
      rw [if_pos hn]
      exact ⟨_, rfl, rfl⟩
  · exact fun s X hn => transform_no_configError s X hn
  · intro s X
    unfold Lag.fit
    cases hsc : s.shiftColumns <;> rfl
  · intro s X s' X' h
    obtain ⟨cs, X1, X2, _, hg, _, _⟩ := transform_ok_elim h
    exact (genFold_state_of_ok _ _ _ _ _ hg).2.1

/-- Witness for C5: the assert fires for `n_periods = 0`, construction with
`n_periods = 2` succeeds, and a concrete transform raises no
ConfigurationError. -/
theorem C5_witness :
    Lag.make 0 none false false false = .error .configError ∧
    (∃ s, Lag.make 2 (some ["x1"]) false false true = .ok s ∧ s.nPeriods = 2) ∧
    lagW.transform tblW ≠ .error .configError :=
  ⟨(C5_configuration_error_only_at_construction.1 0 none false false false).1.mpr
      (by decide),
   (C5_configuration_error_only_at_construction.1 2 (some ["x1"]) false false true).2.2
      (by decide),
   C5_configuration_error_only_at_construction.2.1 lagW tblW (by decide)⟩

end ClaimC5

section ClaimC8

/-- C8: if `shift_columns` was not supplied, `fit` sets it to the fitted
table's full column-name list in table order and changes nothing else;
`fit` reads no cell values (two tables with the same column names fit
identically); a `fit` on an instance that already has a column set is the
identity; and a later `transform` resolves its generation plan from the
column list captured at fit time, not from the table it transforms. -/
theorem C8_fit_resolves_columns_once (s : Lag) (X : Table)
    (h : s.shiftColumns = none) :
    s.fit X = { s with shiftColumns := some X.colNames } ∧
    (∀ Y : Table, Y.colNames = X.colNames → s.fit Y = s.fit X) ∧
    (∀ s2 : Lag, s2.shiftColumns ≠ none → s2.fit X = s2) ∧
    (∀ (Y : Table) (s' : Lag) (Y' : Table),
      (s.fit X).transform Y = .ok (s', Y') →
      s'.newColumns = s.newColumns ++ planNames (s.genPlan X.colNames)) := by
  have hfit : s.fit X = { s with shiftColumns := some X.colNames } := by
    unfold Lag.fit
    rw [h]
  refine ⟨hfit, ?_, ?_, ?_⟩
  · intro Y hY
    unfold Lag.fit
    rw [h, hY]
  · intro s2 h2
    unfold Lag.fit
    cases hsc : s2.shiftColumns with
    | none => exact absurd hsc h2
    | some _ => rfl
  · intro Y s' Y' htr
    obtain ⟨cs, Y1, Y2, hsc, hg, _, _⟩ := transform_ok_elim htr
    rw [hfit] at hsc
    injection hsc with hsc
    subst hsc
    have hst := (genFold_state_of_ok _ _ _ _ _ hg).1
    rw [hfit] at hst
    exact hst

/-- Witness for C8 on a concrete unfitted instance and table. -/
theorem C8_witness :
    lagNoCols.fit tblW = { lagNoCols with shiftColumns := some ["x1"] } :=
  (C8_fit_resolves_columns_once lagNoCols tblW rfl).1

end ClaimC8

section ClaimC2

/-- C2: one successful Transform call appends, per source column `c` and in
source order, exactly the names built from the iterated lag amounts: when
`only_one_column_for_periods` is false with `periods = n` these are the `n`
names with suffixes `_LAG-1` through `_LAG-n` in ascending order, and when
it is true, exactly the single name with suffix `_LAG-n`. -/
theorem C2_generated_column_count (s : Lag) (cs : List String) (X : Table)
    (s' : Lag) (X' : Table) (hsc : s.shiftColumns = some cs)
    (h : s.transform X = .ok (s', X')) :
    s'.newColumns = s.newColumns ++
      cs.flatMap (fun c => s.periodList.map (fun k => mkLagName c k)) ∧
    (s.onlyOneColumnForPeriods = true →
      ∀ c, s.periodList.map (fun k => mkLagName c k) = [mkLagName c s.nPeriods]) ∧
    (s.onlyOneColumnForPeriods = false →
      ∀ c, (s.periodList.map (fun k => mkLagName c k)).length = s.nPeriods.toNat ∧
        ∀ j, j < s.nPeriods.toNat →
          (s.periodList.map (fun k => mkLagName c k))[j]? =
            some (mkLagName c (Int.ofNat (j + 1)))) := by
  obtain ⟨cs', X1, X2, hsc', hg, _, _⟩ := transform_ok_elim h
  rw [hsc] at hsc'
  injection hsc' with hsc'
  subst hsc'
  refine ⟨?_, ?_, ?_⟩
  · rw [(genFold_state_of_ok _ _ _ _ _ hg).1, planNames_genPlan]
  · intro hone c
    unfold Lag.periodList
    rw [if_pos hone]
    rfl
  · intro hone c
    unfold Lag.periodList
    rw [if_neg (by rw [hone]; exact Bool.false_ne_true)]
    constructor
    · simp
    · intro j hj
      rw [List.getElem?_map, List.getElem?_map, List.getElem?_range hj]
      rfl

/-- Witness for C2 at the spec's section-8 scenario. -/
theorem C2_witness :
    ∃ s' X', lagW.transform tblW = .ok (s', X') ∧
      s'.newColumns = ["x1_LAG-2"] := by
  obtain ⟨s', X', h⟩ : ∃ s' X', lagW.transform tblW = .ok (s', X') := ⟨_, _, rfl⟩
  refine ⟨s', X', h, ?_⟩
  rw [(C2_generated_column_count lagW ["x1"] tblW s' X' rfl h).1]
  decide

end ClaimC2

section ClaimC9

/-- C9: across repeated Transform calls on one instance the tracking state
only grows: a successful call appends exactly the generated names to
`new_columns` (never clearing it), every key already in `column_dtype_map`
is still a key afterwards with its value unchanged unless the name was
re-generated, every generated name is a key afterwards, and — when the
generated names are distinct and disjoint from the source names — a
generated (possibly re-generated) name's entry is overwritten to the
current table's source-column dtype. -/
theorem C9_tracking_accumulates (s : Lag) (cs : List String) (X : Table)
    (s' : Lag) (X' : Table) (hsc : s.shiftColumns = some cs)
    (h : s.transform X = .ok (s', X')) :
    s'.newColumns = s.newColumns ++ planNames (s.genPlan cs) ∧
    (∀ n d, lookupA s.columnDtypeMap n = some d →
      ∃ d', lookupA s'.columnDtypeMap n = some d' ∧
        (n ∉ planNames (s.genPlan cs) → d' = d)) ∧
    (∀ n ∈ planNames (s.genPlan cs), ∃ d, lookupA s'.columnDtypeMap n = some d) ∧
    ((planNames (s.genPlan cs)).Nodup →
      (∀ n ∈ planNames (s.genPlan cs), n ∉ cs) →
      ∀ c ∈ cs, ∀ k ∈ s.periodList, ∀ col, X.getCol c = some col →
        lookupA s'.columnDtypeMap (mkLagName c k) = some col.dtype) := by
  obtain ⟨cs', X1, X2, hsc', hg, _, _⟩ := transform_ok_elim h
  rw [hsc] at hsc'
  injection hsc' with hsc'
  subst hsc'
  obtain ⟨hm1, hm2, hm3, hm4⟩ := genFold_map_of_ok _ _ _ _ _ hg
  refine ⟨(genFold_state_of_ok _ _ _ _ _ hg).1, ?_, hm4, ?_⟩
  · intro n d hd
    by_cases hn : n ∈ planNames (s.genPlan cs)
    · obtain ⟨d', hd'⟩ := hm4 n hn
      exact ⟨d', hd', fun hn' => absurd hn hn'⟩
    · exact ⟨d, by rw [hm1 n hn]; exact hd, fun _ => rfl⟩
  · intro hnd hdisj c hc k hk col hcol
    have hdisj' : ∀ p ∈ s.genPlan cs, ∀ q ∈ s.genPlan cs,
        mkLagName p.1 p.2 ≠ q.1 := by
      intro p hp q hq heq
      have h1 : mkLagName p.1 p.2 ∈ planNames (s.genPlan cs) :=
        List.mem_map.mpr ⟨p, hp, rfl⟩
      have h2 : q.1 ∈ cs := ((mem_genPlan s cs q).mp hq).1
      exact hdisj _ h1 (heq ▸ h2)
    have hp : (c, k) ∈ s.genPlan cs := (mem_genPlan s cs (c, k)).mpr ⟨hc, hk⟩
    exact (genFold_values_of_ok _ _ _ _ _ hg hnd hdisj' (c, k) hp col hcol).2

/-- Witness for C9: after a concrete transform the tracked map holds the
source column's pre-shift dtype under the generated name. -/
theorem C9_witness :
    ∃ s' X', lagW.transform tblW = .ok (s', X') ∧
      lookupA s'.columnDtypeMap "x1_LAG-2" = some Dtype.int := by
  obtain ⟨s', X', h⟩ : ∃ s' X', lagW.transform tblW = .ok (s', X') := ⟨_, _, rfl⟩
  refine ⟨s', X', h, ?_⟩
  exact (C9_tracking_accumulates lagW ["x1"] tblW s' X' rfl h).2.2.2
    (by decide) (by decide) "x1" (by decide) 2 (by decide)
    ⟨Dtype.int, [some 1, some 2, some 3, some 4, some 5]⟩ rfl

end ClaimC9

section ClaimC1

/-- C1 counterexample: the claim "the generated column named
`c + "_LAG-" + k` has at row `i` the value of `c` at row `i - k` for
`i ≥ k`" fails when a source column's name collides with a generated name.
On `tblCollide` with sources `["y", "y_LAG-1"]` and `periods = 1`, the
column `y_LAG-1` is overwritten by the lag of `y` before `y_LAG-1` itself
is shifted, so `y_LAG-1_LAG-1` at row 2 holds `1` (the shifted overwrite)
instead of `20` (the input value of `y_LAG-1` at row 1). -/
theorem C1_lag_values_counterexample :
    ¬ (∀ (s' : Lag) (X' : Table), lagCollide.transform tblCollide = .ok (s', X') →
        ∀ c ∈ ["y", "y_LAG-1"], ∀ k ∈ lagCollide.periodList,
          ∀ col, tblCollide.getCol c = some col →
            ∃ col', X'.getCol (mkLagName c k) = some col' ∧
              ∀ i : Nat, i < col.values.length →
                col'.values[i]? =
                  if i < k.toNat then some none else col.values[i - k.toNat]?) := by
  intro h
  obtain ⟨col', hcol', hvals⟩ :=
    h _ _ rfl "y_LAG-1" (by decide) 1 (by decide)
      ⟨Dtype.int, [some 10, some 20, some 30]⟩ rfl
  have hcc : some col' = some (⟨Dtype.float, [none, none, some 1]⟩ : Col) :=
    hcol'.symm.trans rfl
  injection hcc with hcc
  subst hcc
  exact absurd (hvals 2 (by decide)) (by decide)

/-- C1 (amended): provided that no generated lag name coincides with a
configured source column name (and the generated names are pairwise
distinct — which holds automatically for distinct sources), a transform
with the drop options off succeeds and, for every source column `c` and
every iterated lag amount `k`, the generated column named
`c + "_LAG-" + k` has the input length and holds at row `i` the input value
of `c` at row `i - k` for `i ≥ k` and the missing sentinel for `i < k`. -/
theorem C1_lag_values (s : Lag) (cs : List String) (X : Table)
    (hsc : s.shiftColumns = some cs)
    (hna : s.dropNaRows = false) (hdo : s.dropOriginalColumns = false)
    (hn : 0 < s.nPeriods)
    (hsub : ∀ c ∈ cs, c ∈ X.colNames)
    (hnd : (planNames (s.genPlan cs)).Nodup)
    (hdisj : ∀ n ∈ planNames (s.genPlan cs), n ∉ cs) :
    ∃ s' X', s.transform X = .ok (s', X') ∧
      ∀ c ∈ cs, ∀ k ∈ s.periodList, ∀ col, X.getCol c = some col →
        ∃ col', X'.getCol (mkLagName c k) = some col' ∧
          col'.values.length = col.values.length ∧
          ∀ i : Nat, i < col.values.length →
            col'.values[i]? =
              if i < k.toNat then some none else col.values[i - k.toNat]? := by
  have hk : ∀ p ∈ s.genPlan cs, 0 < p.2 :=
    fun p hp => periodList_pos s hn p.2 ((mem_genPlan s cs p).mp hp).2
  have hc : ∀ p ∈ s.genPlan cs, p.1 ∈ X.colNames :=
    fun p hp => hsub p.1 ((mem_genPlan s cs p).mp hp).1
  obtain ⟨s1, X1, hg⟩ := genFold_isOk (s.genPlan cs) s X hk hc
  have ht : s.transform X = .ok (s1, X1) := by
    rw [transform_eq_of_genFold cs hsc s1 X1 hg, hna, hdo]
    simp
  refine ⟨s1, X1, ht, ?_⟩
  intro c hcm k hkm col hcol
  have hdisj' : ∀ p ∈ s.genPlan cs, ∀ q ∈ s.genPlan cs,
      mkLagName p.1 p.2 ≠ q.1 := by
    intro p hp q hq heq
    have h1 : mkLagName p.1 p.2 ∈ planNames (s.genPlan cs) :=
      List.mem_map.mpr ⟨p, hp, rfl⟩
    have h2 : q.1 ∈ cs := ((mem_genPlan s cs q).mp hq).1
    exact hdisj _ h1 (heq ▸ h2)
  have hp : (c, k) ∈ s.genPlan cs := (mem_genPlan s cs (c, k)).mpr ⟨hcm, hkm⟩
  obtain ⟨hval, _⟩ := genFold_values_of_ok _ _ _ _ _ hg hnd hdisj' (c, k) hp col hcol
  refine ⟨shiftCol k.toNat col, hval, ?_, ?_⟩
  · exact length_shiftVals k.toNat col.values
  · intro i hi
    exact getElem?_shiftVals k.toNat col.values i hi

/-- Witness for the amended C1 at the spec's section-8 scenario
(`x1 = [1..5]`, `periods = 2`, one column per max period). -/
theorem C1_witness :
    ∃ s' X', lagW.transform tblW = .ok (s', X') ∧
      ∀ c ∈ ["x1"], ∀ k ∈ lagW.periodList, ∀ col, tblW.getCol c = some col →
        ∃ col', X'.getCol (mkLagName c k) = some col' ∧
          col'.values.length = col.values.length ∧
          ∀ i : Nat, i < col.values.length →
            col'.values[i]? =
              if i < k.toNat then some none else col.values[i - k.toNat]? :=
  C1_lag_values lagW ["x1"] tblW rfl rfl rfl (by decide) (by decide)
    (by decide) (by decide)

end ClaimC1

section ClaimC10

/-- C10 counterexample: with both drop options off, Transform is claimed to
leave every pre-existing column's values unchanged; but when the table
already has a column named like a generated lag name, that column is
overwritten.  On `tblOverwrite` (columns `x = [1]`, `x_LAG-1 = [5]`) with
source `["x"]` and `periods = 1`, the pre-existing column `x_LAG-1` ends up
as `[missing]`, not `[5]`. -/
theorem C10_frame_counterexample :
    ∃ s' X', lagOverwrite.transform tblOverwrite = .ok (s', X') ∧
      "x_LAG-1" ∈ tblOverwrite.colNames ∧
      X'.getCol "x_LAG-1" ≠ tblOverwrite.getCol "x_LAG-1" := by
  refine ⟨_, _, rfl, ?_, ?_⟩ <;> decide

/-- C10 (amended): when both drop options are off, Transform only adds
columns — every pre-existing column is still present, the row count is
unchanged, and every pre-existing column whose name is not among the
generated lag names keeps all of its values (a pre-existing column that
shares a generated name is overwritten, which the counterexample shows). -/
theorem C10_transform_only_adds (s : Lag) (cs : List String) (X : Table)
    (hsc : s.shiftColumns = some cs)
    (hna : s.dropNaRows = false) (hdo : s.dropOriginalColumns = false)
    (hn : 0 < s.nPeriods)
    (hsub : ∀ c ∈ cs, c ∈ X.colNames)
    (hrect : ∀ p ∈ X.cols, p.2.values.length = X.nRows) :
    ∃ s' X', s.transform X = .ok (s', X') ∧
      (∀ m ∈ X.colNames, m ∈ X'.colNames) ∧
      X'.nRows = X.nRows ∧
      (∀ m ∈ X.colNames, m ∉ planNames (s.genPlan cs) →
        X'.getCol m = X.getCol m) := by
  have hk : ∀ p ∈ s.genPlan cs, 0 < p.2 :=
    fun p hp => periodList_pos s hn p.2 ((mem_genPlan s cs p).mp hp).2
  have hc : ∀ p ∈ s.genPlan cs, p.1 ∈ X.colNames :=
    fun p hp => hsub p.1 ((mem_genPlan s cs p).mp hp).1
  obtain ⟨s1, X1, hg⟩ := genFold_isOk (s.genPlan cs) s X hk hc
  have ht : s.transform X = .ok (s1, X1) := by
    rw [transform_eq_of_genFold cs hsc s1 X1 hg, hna, hdo]
    simp
  obtain ⟨ht1, ht2⟩ := genFold_table_of_ok _ _ _ _ _ hg
  refine ⟨s1, X1, ht, fun m hm => (ht1 m).mpr (Or.inl hm), ?_,
    fun m _ hm' => ht2 m hm'⟩
  have hlen : ∀ p ∈ X1.cols, p.2.values.length = X.nRows :=
    genFold_lengths_of_ok _ _ _ _ _ X.nRows hg hrect
  cases hX : X.cols with
  | nil =>
    have hplan : s.genPlan cs = [] := by
      rw [List.eq_nil_iff_forall_not_mem]
      intro p hp
      have := hc p hp
      rw [Table.colNames, hX] at this
      simp at this
    rw [hplan] at hg
    injection genFold_nil_ok hg with h1 h2
    rw [← h2]
  | cons p ps =>
    have hne : X1.cols ≠ [] := by
      intro hnil
      have hp1 : p.1 ∈ X.colNames := by
        rw [Table.colNames, hX]
        exact List.mem_map.mpr ⟨p, List.mem_cons_self _ _, rfl⟩
      have hmem : p.1 ∈ X1.colNames := (ht1 p.1).mpr (Or.inl hp1)
      rw [Table.colNames, hnil] at hmem
      simp at hmem
    exact nRows_eq_of_lengths X1 X.nRows hlen hne

/-- Witness for the amended C10 at the spec's section-8 scenario. -/
theorem C10_witness :
    ∃ s' X', lagW.transform tblW = .ok (s', X') ∧
      (∀ m ∈ tblW.colNames, m ∈ X'.colNames) ∧
      X'.nRows = tblW.nRows ∧
      (∀ m ∈ tblW.colNames, m ∉ planNames (lagW.genPlan ["x1"]) →
        X'.getCol m = tblW.getCol m) :=
  C10_transform_only_adds lagW ["x1"] tblW rfl rfl rfl (by decide) (by decide)
    (by decide)

end ClaimC10

section ClaimC3

/-- C3 counterexample: with both `drop_na_rows=True` and
`drop_original_columns=True` and a source set containing a generated name
(sources `["x", "x_LAG-1"]`, `periods = 1` on `tblDropCollide`), the
transform succeeds and `column_dtype_map` records the generated column
`x_LAG-1` with its pre-shift source dtype `int`, yet that column is removed
with the sources, so it has no column — hence no dtype — in the returned
table: "every tracked generated column's type equals its pre-shift source
type" fails. -/
theorem C3_dropna_counterexample :
    ∃ s' X', lagNaDropCollide.transform tblDropCollide = .ok (s', X') ∧
      lookupA s'.columnDtypeMap "x_LAG-1" = some Dtype.int ∧
      X'.getCol "x_LAG-1" = none := by
  refine ⟨_, _, rfl, ?_, ?_⟩ <;> decide

/-- C3 (amended): with `drop_na_rows=True`, a successful Transform call
first removes every row containing a missing value in any column of the
widened table and then casts every column named in `column_dtype_map` back
to its recorded original dtype (this is the order of `Lag.transform`), so
the returned table has zero missing values in any column and every tracked
generated column that is still present in the returned table has its
recorded pre-shift source dtype (a tracked column can be absent when
`drop_original_columns` removes it, as the counterexample shows).  The only
assumption besides success is the `dict` invariant that the tracked map has
no duplicate keys (true of every reachable state). -/
theorem C3_dropna_then_cast (s : Lag) (X : Table)
    (s' : Lag) (X' : Table)
    (hna : s.dropNaRows = true)
    (hnd : (s.columnDtypeMap.map Prod.fst).Nodup)
    (h : s.transform X = .ok (s', X')) :
    (∀ p ∈ X'.cols, ∀ v ∈ p.2.values, v ≠ none) ∧
    (∀ n t, lookupA s'.columnDtypeMap n = some t →
      ∀ col, X'.getCol n = some col → col.dtype = t) := by
  obtain ⟨cs, X1, X2, hsc, hg, h2, h3⟩ := transform_ok_elim h
  rw [hna] at h2
  simp only [if_true] at h2
  obtain ⟨_, _, hm3, _⟩ := genFold_map_of_ok _ _ _ _ _ hg
  obtain ⟨hnm, hpres, hdt⟩ :=
    castColsToOriginal_of_ok s'.columnDtypeMap X1.dropna X2 h2 (no_missing_dropna X1)
  have hdt' := hdt (hm3 hnd)
  cases hdo : s.dropOriginalColumns
  · rw [hdo] at h3
    simp only [Bool.false_eq_true, if_false] at h3
    injection h3 with h3
    subst h3
    refine ⟨hnm, ?_⟩
    intro n t hlk col hcol
    obtain ⟨c, hc, hct⟩ := hdt' (n, t) (lookupA_mem _ _ _ hlk)
    rw [hc] at hcol
    injection hcol with hcol
    rw [← hcol]
    exact hct
  · rw [hdo] at h3
    simp only [if_true] at h3
    have hcols : X'.cols = X2.cols.filter (fun p => ! memB cs p.1) :=
      dropCols_ok_elim h3
    constructor
    · intro p hp
      rw [hcols] at hp
      exact hnm p (List.mem_filter.mp hp).1
    · intro n t hlk col hcol
      by_cases hncs : n ∈ cs
      · have hnone : X'.getCol n = none := by
          show lookupA X'.cols n = none
          rw [hcols]
          exact lookupA_filter_mem X2.cols cs n hncs
        rw [hnone] at hcol
        cases hcol
      · have hgc : X'.getCol n = X2.getCol n := by
          show lookupA X'.cols n = lookupA X2.cols n
          rw [hcols]
          exact lookupA_filter_not_mem X2.cols cs n hncs
        rw [hgc] at hcol
        obtain ⟨c, hc, hct⟩ := hdt' (n, t) (lookupA_mem _ _ _ hlk)
        rw [hc] at hcol
        injection hcol with hcol
        rw [← hcol]
        exact hct

/-- Witness for the amended C3 on a concrete table: `x1 = [1..5]`,
`periods = 1`, `drop_na_rows=True`. -/
theorem C3_witness :
    ∃ s' X', lagWna.transform tblW = .ok (s', X') ∧
      (∀ p ∈ X'.cols, ∀ v ∈ p.2.values, v ≠ none) ∧
      (∀ n t, lookupA s'.columnDtypeMap n = some t →
        ∀ col, X'.getCol n = some col → col.dtype = t) := by
  obtain ⟨s', X', h⟩ : ∃ s' X', lagWna.transform tblW = .ok (s', X') := ⟨_, _, rfl⟩
  exact ⟨s', X', h,
    C3_dropna_then_cast lagWna tblW s' X' rfl (by decide) h⟩

end ClaimC3

section ClaimC4

/-- C4 counterexample: with `drop_original_columns=True`, when a configured
source column's name is itself a generated lag name, that generated column
is removed together with the sources, so not every generated column is
still present.  On `tblDropCollide` with sources `["x", "x_LAG-1"]` and
`periods = 1`, the name `x_LAG-1` is generated (it is recorded in
`new_columns`) yet absent from the returned table. -/
theorem C4_drop_source_counterexample :
    ∃ s' X', lagDropCollide.transform tblDropCollide = .ok (s', X') ∧
      "x_LAG-1" ∈ s'.newColumns ∧
      "x_LAG-1" ∉ X'.colNames := by
  refine ⟨_, _, rfl, ?_, ?_⟩ <;> decide

/-- C4 (amended): with `drop_original_columns=True` on a freshly
constructed instance, Transform succeeds and removes exactly the configured
source columns and no others — a name is in the returned table if and only
if it was an input column or a generated name, and is not a source — after
generation and after any row-dropping/casting; in particular every
generated column whose name is not among the configured source columns is
still present, as is every other input column. -/
theorem C4_drop_source_columns (s : Lag) (cs : List String) (X : Table)
    (hsc : s.shiftColumns = some cs)
    (hdo : s.dropOriginalColumns = true)
    (hfresh : s.columnDtypeMap = [])
    (hn : 0 < s.nPeriods)
    (hsub : ∀ c ∈ cs, c ∈ X.colNames) :
    ∃ s' X', s.transform X = .ok (s', X') ∧
      (∀ m, m ∈ X'.colNames ↔
        (m ∈ X.colNames ∨ m ∈ planNames (s.genPlan cs)) ∧ m ∉ cs) ∧
      (∀ g ∈ planNames (s.genPlan cs), g ∉ cs → g ∈ X'.colNames) ∧
      (∀ m ∈ X.colNames, m ∉ cs → m ∈ X'.colNames) := by
  have hk : ∀ p ∈ s.genPlan cs, 0 < p.2 :=
    fun p hp => periodList_pos s hn p.2 ((mem_genPlan s cs p).mp hp).2
  have hc : ∀ p ∈ s.genPlan cs, p.1 ∈ X.colNames :=
    fun p hp => hsub p.1 ((mem_genPlan s cs p).mp hp).1
  obtain ⟨s1, X1, hg⟩ := genFold_isOk (s.genPlan cs) s X hk hc
  obtain ⟨_, hm2, _, _⟩ := genFold_map_of_ok _ _ _ _ _ hg
  obtain ⟨ht1, _⟩ := genFold_table_of_ok _ _ _ _ _ hg
  have hkeys : ∀ q ∈ s1.columnDtypeMap, q.1 ∈ X1.colNames := by
    intro q hq
    rcases hm2 q hq with hq' | hq'
    · rw [hfresh] at hq'
      exact absurd hq' (List.not_mem_nil q)
    · exact (ht1 q.1).mpr (Or.inr hq')
  obtain ⟨X2, hX2, hcn2, _⟩ := postGen_ok s1 X1 s.dropNaRows hkeys
  have hall : ∀ c ∈ cs, c ∈ X2.colNames := by
    intro c hcm
    rw [hcn2]
    exact (ht1 c).mpr (Or.inl (hsub c hcm))
  obtain ⟨X3, hX3, hd1, _⟩ := dropCols_ok X2 cs hall
  have ht : s.transform X = .ok (s1, X3) := by
    rw [transform_eq_of_genFold cs hsc s1 X1 hg, hX2, hdo]
    show (match X2.dropCols cs with
          | Except.error e => Except.error e
          | Except.ok X3 => Except.ok (s1, X3)) = Except.ok (s1, X3)
    rw [hX3]
  have hmm : ∀ m, m ∈ X3.colNames ↔
      (m ∈ X.colNames ∨ m ∈ planNames (s.genPlan cs)) ∧ m ∉ cs := by
    intro m
    rw [hd1 m, hcn2, ht1 m]
  refine ⟨s1, X3, ht, hmm, ?_, ?_⟩
  · intro g hg' hgc
    exact (hmm g).mpr ⟨Or.inr hg', hgc⟩
  · intro m hm hmc
    exact (hmm m).mpr ⟨Or.inl hm, hmc⟩

/-- Witness for the amended C4 on a concrete table. -/
theorem C4_witness :
    ∃ s' X', lagWdrop.transform tblW = .ok (s', X') ∧
      (∀ m, m ∈ X'.colNames ↔
        (m ∈ tblW.colNames ∨ m ∈ planNames (lagWdrop.genPlan ["x1"])) ∧
          m ∉ ["x1"]) ∧
      (∀ g ∈ planNames (lagWdrop.genPlan ["x1"]), g ∉ ["x1"] → g ∈ X'.colNames) ∧
      (∀ m ∈ tblW.colNames, m ∉ ["x1"] → m ∈ X'.colNames) :=
  C4_drop_source_columns lagWdrop ["x1"] tblW rfl rfl rfl (by decide) (by decide)

end ClaimC4

section DTLemmas

theorem popFold_error_elim {α : Type} :
    ∀ (fs : List String) (m : List (String × α)) (e : PyErr),
      popFold fs m = .error e → e = .keyError := by
  intro fs
  induction fs with
  | nil => intro m e h; cases h
  | cons f fs ih =>
    intro m e h
    unfold popFold at h
    split at h
    · exact ih _ _ h
    · rename_i e' hp
      injection h with h'
      subst h'
      unfold popKey at hp
      by_cases hk : hasKeyA m f = true
      · rw [if_pos hk] at hp; cases hp
      · rw [if_neg hk] at hp
        injection hp with hp
        exact hp.symm

theorem popFold_ok_spec {α : Type} :
    ∀ (fs : List String) (m m' : List (String × α)),
      popFold fs m = .ok m' →
      m' = m.filter (fun p => ! memB fs p.1) ∧
      (∀ f ∈ fs, f ∈ m.map Prod.fst) ∧ fs.Nodup := by
  intro fs
  induction fs with
  | nil =>
    intro m m' h
    injection h with h'
    subst h'
    refine ⟨?_, by simp, List.nodup_nil⟩
    have : ∀ p : String × α, (! memB ([] : List String) p.1) = true := by
      intro p; simp [memB]
    rw [List.filter_eq_self.mpr (fun p _ => this p)]
  | cons f fs ih =>
    intro m m' h
    unfold popFold at h
    split at h
    · rename_i m1 hp
      unfold popKey at hp
      by_cases hk : hasKeyA m f = true
      · rw [if_pos hk] at hp
        injection hp with hp
        obtain ⟨ih1, ih2, ih3⟩ := ih m1 m' h
        have hm1 : m1 = m.filter (fun p => ! decide (p.1 = f)) := hp.symm
        subst hm1
        have hfnotin : f ∉ fs := by
          intro hf
          have := ih2 f hf
          simp only [List.mem_map] at this
          obtain ⟨q, hq, hq1⟩ := this
          rw [List.mem_filter] at hq
          rw [hq1] at hq
          simp at hq
        refine ⟨?_, ?_, List.nodup_cons.mpr ⟨hfnotin, ih3⟩⟩
        · rw [ih1, List.filter_filter]
          apply List.filter_congr
          intro p _
          by_cases hpf : p.1 = f
          · simp [memB, hpf]
          · by_cases hpfs : p.1 ∈ fs
            · have h1 : memB fs p.1 = true := (memB_iff _ _).mpr hpfs
              have h2 : memB (f :: fs) p.1 = true :=
                (memB_iff _ _).mpr (List.mem_cons_of_mem _ hpfs)
              simp [h1, h2, hpf]
            · have h1 : memB fs p.1 = false := by
                cases hmm : memB fs p.1
                · rfl
                · exact absurd ((memB_iff _ _).mp hmm) hpfs
              have h2 : memB (f :: fs) p.1 = false := by
                cases hmm : memB (f :: fs) p.1
                · rfl
                · rcases List.mem_cons.mp ((memB_iff _ _).mp hmm) with h' | h'
                  · exact absurd h' hpf
                  · exact absurd h' hpfs
              simp [h1, h2, hpf]
        · intro g hg
          rcases List.mem_cons.mp hg with rfl | hg'
          · exact (hasKeyA_iff m g).mp hk
          · have := ih2 g hg'
            simp only [List.mem_map] at this
            obtain ⟨q, hq, hq1⟩ := this
            rw [List.mem_filter] at hq
            exact List.mem_map.mpr ⟨q, hq.1, hq1⟩
      · rw [if_neg hk] at hp; cases hp
    · cases h

theorem keys_filter_comm {α : Type} (m : List (String × α)) (fs : List String) :
    (m.filter (fun p => ! memB fs p.1)).map Prod.fst =
      (m.map Prod.fst).filter (fun k => ! memB fs k) := by
  induction m with
  | nil => simp
  | cons p ps ih =>
    cases hm : memB fs p.1
    · simp [List.filter, hm, ih]
    · simp [List.filter, hm, ih]

theorem length_filter_not_mem (l : List String) (fs : List String)
    (hl : l.Nodup) (hfs : fs.Nodup) (hsub : ∀ f ∈ fs, f ∈ l) :
    (l.filter (fun k => ! memB fs k)).length = l.length - fs.length := by
  have hperm : (l.filter (fun k => memB fs k)).Perm fs := by
    apply List.perm_of_nodup_nodup_toFinset_eq (hl.filter _) hfs
    ext x
    simp only [List.mem_toFinset, List.mem_filter]
    constructor
    · rintro ⟨_, hx⟩
      exact (memB_iff _ _).mp hx
    · intro hx
      exact ⟨hsub x hx, (memB_iff _ _).mpr hx⟩
  have hlen : l.length =
      (l.filter (fun k => memB fs k)).length +
      (l.filter (fun k => ! memB fs k)).length := by
    rw [← List.countP_eq_length_filter, ← List.countP_eq_length_filter,
        List.length_eq_countP_add_countP (fun k => memB fs k) l]
    congr 1
    apply List.countP_congr
    intro a _
    cases memB fs a <;> simp
  rw [hlen, hperm.length_eq]
  omega

theorem handleExcludedFeatures_some (fs : List String)
    (m : List (String × (Timestamp → DTVal))) :
    handleExcludedFeatures (some fs) m =
      if fs.all (fun f => hasKeyA m f) then popFold fs m
      else .error .configError := rfl

theorem map_name_filter_comm {α : Type} (m : List (String × α))
    (fs : List String) (g : String → String) :
    (m.filter (fun p => ! memB fs p.1)).map (fun p => g p.1) =
      ((m.map Prod.fst).filter (fun k => ! memB fs k)).map g := by
  induction m with
  | nil => simp
  | cons p ps ih =>
    cases hm : memB fs p.1 <;> simp [List.filter, hm, ih]

theorem dtGenFold_mono (d : String) :
    ∀ (m : List (String × (Timestamp → DTVal))) (X X' : DTTable),
      dtGenFold d m X = .ok X' →
      (∀ n, n ∈ X.cols.map Prod.fst → n ∈ X'.cols.map Prod.fst) ∧
      (∀ p ∈ m, mkFeatureName d p.1 ∈ X'.cols.map Prod.fst) := by
  intro m
  induction m with
  | nil =>
    intro X X' h
    injection h with h'
    subst h'
    exact ⟨fun n hn => hn, fun p hp => absurd hp (List.not_mem_nil p)⟩
  | cons p ps ih =>
    intro X X' h
    unfold dtGenFold at h
    split at h
    · rename_i vs hvs
      obtain ⟨ih1, ih2⟩ := ih _ _ h
      constructor
      · intro n hn
        refine ih1 n ?_
        exact (mem_keys_setA _ _ _ _).mpr (Or.inl hn)
      · intro q hq
        rcases List.mem_cons.mp hq with rfl | hq'
        · refine ih1 _ ?_
          exact (mem_keys_setA _ _ _ _).mpr (Or.inr rfl)
        · exact ih2 q hq'
    · cases h
    · cases h

theorem dtColsFold_mono (m : List (String × (Timestamp → DTVal))) :
    ∀ (ds : List String) (X X' : DTTable),
      dtColsFold m ds X = .ok X' →
      (∀ n, n ∈ X.cols.map Prod.fst → n ∈ X'.cols.map Prod.fst) ∧
      (∀ d ∈ ds, ∀ p ∈ m, mkFeatureName d p.1 ∈ X'.cols.map Prod.fst) := by
  intro ds
  induction ds with
  | nil =>
    intro X X' h
    injection h with h'
    subst h'
    exact ⟨fun n hn => hn, fun d hd => absurd hd (List.not_mem_nil d)⟩
  | cons d ds ih =>
    intro X X' h
    unfold dtColsFold at h
    split at h
    · rename_i X1 h1
      obtain ⟨ihg1, ihg2⟩ := dtGenFold_mono d m X X1 h1
      obtain ⟨ih1, ih2⟩ := ih _ _ h
      constructor
      · exact fun n hn => ih1 n (ihg1 n hn)
      · intro d' hd' p hp
        rcases List.mem_cons.mp hd' with rfl | hd''
        · exact ih1 _ (ihg2 p hp)
        · exact ih2 d' hd'' p hp
    · cases h

end DTLemmas

section ClaimC6

/-- C6: constructing a DateTimeFeatureExtractor raises ConfigurationError
(the `assert` in `handle_excluded_features`, run from `__init__` before any
table exists) if and only if some entry of `exclude_features` is not one of
the nine catalog keys `year, month, day-of-month, day-of-year, day-of-week,
is-weekend, hour, minute, second`.  (A duplicated valid entry makes the
second `dict.pop` raise `KeyError`, not ConfigurationError, so the
equivalence about ConfigurationError is unaffected.) -/
theorem C6_dt_configuration_error_iff :
    dtCatalog = ["year", "month", "day-of-month", "day-of-year",
      "day-of-week", "is-weekend", "hour", "minute", "second"] ∧
    ∀ (dtColumns : List String) (ex : Option (List String)) (b : Bool),
      DateTimeFeatures.make dtColumns ex b = .error .configError ↔
        ∃ fs, ex = some fs ∧ ∃ f ∈ fs, f ∉ dtCatalog := by
  refine ⟨rfl, ?_⟩
  intro dtColumns ex b
  unfold DateTimeFeatures.make handleExcludedFeatures
  cases ex with
  | none =>
    simp only
    constructor
    · intro h; cases h
    · rintro ⟨fs, hfs, _⟩; cases hfs
  | some fs =>
    simp only
    by_cases hall : fs.all (fun f => hasKeyA includedFeaturesAndMethodsMap0 f) = true
    · rw [if_pos hall]
      constructor
      · intro h
        cases hpf : popFold fs includedFeaturesAndMethodsMap0 with
        | ok m => rw [hpf] at h; cases h
        | error e =>
          rw [hpf] at h
          injection h with h'
          have := popFold_error_elim fs _ e hpf
          rw [this] at h'
          cases h'
      · rintro ⟨fs', hfs', f, hf, hcat⟩
        injection hfs' with hfs'
        subst hfs'
        rw [List.all_eq_true] at hall
        exact absurd ((hasKeyA_iff _ _).mp (hall f hf)) hcat
    · rw [if_neg hall]
      constructor
      · intro _
        refine ⟨fs, rfl, ?_⟩
        rw [List.all_eq_true] at hall
        push_neg at hall
        obtain ⟨f, hf, hk⟩ := hall
        refine ⟨f, hf, ?_⟩
        intro hcat
        exact hk ((hasKeyA_iff _ _).mpr hcat)
      · intro _; rfl

end ClaimC6

section ClaimC7

/-- C7: for a successfully constructed extractor with exclusion list `fs`,
the enabled feature kinds are exactly the catalog minus `fs`, in catalog
order; their count is `9 - fs.length` (so excluding `k` valid kinds leaves
`9 - k`); for every source column `d` the generated names are, in catalog
order, `d + "_" + uppercase(kind)` — exactly one per enabled kind — and a
successful transform (without source-dropping) leaves every one of those
generated columns present in the returned table. -/
theorem C7_dt_generated_columns (dt : List String) (fs : List String)
    (b : Bool) (s : DateTimeFeatures)
    (h : DateTimeFeatures.make dt (some fs) b = .ok s) :
    s.enabledKeys = dtCatalog.filter (fun k => ! memB fs k) ∧
    s.enabledKeys.length = dtCatalog.length - fs.length ∧
    (∀ d, s.genNamesFor d =
      (dtCatalog.filter (fun k => ! memB fs k)).map (fun k => mkFeatureName d k)) ∧
    (∀ X X', s.transform X = .ok X' → s.dropOriginalColumns = false →
      ∀ d ∈ s.dtColumns, ∀ g ∈ s.genNamesFor d, g ∈ X'.cols.map Prod.fst) := by
  unfold DateTimeFeatures.make at h
  split at h
  · rename_i m hhe
    injection h with h'
    subst h'
    rw [handleExcludedFeatures_some] at hhe
    by_cases hall : fs.all (fun f => hasKeyA includedFeaturesAndMethodsMap0 f) = true
    · rw [if_pos hall] at hhe
      obtain ⟨hm, hsub, hndfs⟩ := popFold_ok_spec fs _ m hhe
      have hkeys : m.map Prod.fst = dtCatalog.filter (fun k => ! memB fs k) := by
        rw [hm, keys_filter_comm]
        rfl
      refine ⟨hkeys, ?_, ?_, ?_⟩
      · show (m.map Prod.fst).length = dtCatalog.length - fs.length
        rw [hkeys]
        exact length_filter_not_mem dtCatalog fs (by decide) hndfs hsub
      · intro d
        show m.map (fun p => mkFeatureName d p.1) = _
        rw [hm, map_name_filter_comm]
        rfl
      · intro X X' htr hdrop d hd g hg
        unfold DateTimeFeatures.transform at htr
        split at htr
        · cases htr
        · rename_i X1 h1
          obtain ⟨hmono, hgen⟩ := dtColsFold_mono m dt X X1 h1
          have hdropb : b = false := hdrop
          subst hdropb
          simp only [Bool.false_eq_true, if_false] at htr
          injection htr with htr
          subst htr
          obtain ⟨p, hp, hpg⟩ := List.mem_map.mp hg
          exact hpg ▸ hgen d hd p hp
    · rw [if_neg hall] at hhe
      cases hhe
  · cases h

/-- Witness for C7: excluding `is-weekend` and `second` leaves exactly
`9 - 2 = 7` enabled kinds, and the generated names for a column `d` are the
seven uppercased remaining kinds in catalog order. -/
theorem C7_witness :
    ∃ s, DateTimeFeatures.make ["d"] (some ["is-weekend", "second"]) false = .ok s ∧
      s.enabledKeys.length = 7 ∧
      s.genNamesFor "d" =
        ["d_YEAR", "d_MONTH", "d_DAY-OF-MONTH", "d_DAY-OF-YEAR",
         "d_DAY-OF-WEEK", "d_HOUR", "d_MINUTE"] := by
  obtain ⟨s, hs⟩ : ∃ s,
      DateTimeFeatures.make ["d"] (some ["is-weekend", "second"]) false = .ok s :=
    ⟨_, rfl⟩
  have h := C7_dt_generated_columns ["d"] ["is-weekend", "second"] false s hs
  refine ⟨s, hs, ?_, ?_⟩
  · rw [h.2.1]
    decide
  · rw [h.2.2.1 "d"]
    decide

end ClaimC7

end TSFeatures
